import Mathlib

/-!
# Behavior trees: three engines, one contract

A shallow embedding of `include/bt/function.hpp`, `include/bt/inheritance.hpp` and
`include/bt/tuples.hpp`.

A C++ callable `bt::Status()` reads and writes the surrounding program state, so a node is
embedded as a state transformer `σ → Status × σ` over an arbitrary state type `σ`.  Because
`σ` is arbitrary, an equation between two ticks says which children were invoked, how often
and in which order: instantiate `σ` with a log and let every child append its index to it.
-/

namespace bt

/-- Modelled from the spec: `status.hpp` is not part of the sources at hand.  The spec gives
`Status` as an enumeration with exactly the three values Success, Failure and Running. -/
inductive Status
  | Success
  | Failure
  | Running
  deriving DecidableEq, Repr

open Status

/-- Width of `unsigned`, the type of the success counter of the closure and the
dynamic-dispatch `Parallel`: the counter lives in `[0, 2^32)`. -/
def UNSIGNED_MOD : Nat := 2 ^ 32

/-- Width of `size_t`, the type of the success counter of the static `Parallel`. -/
def SIZE_MOD : Nat := 2 ^ 64

/-! ## Closure engine (`function.hpp`) -/

namespace function

/-- `using BehaviorNode = std::function<bt::Status()>`: a call returns a status and
changes the program state. -/
abbrev BehaviorNode (σ : Type) : Type := σ → Status × σ

/-- `using ActionNode = BehaviorNode`. -/
abbrev ActionNode (σ : Type) : Type := BehaviorNode σ

/-- `ConditionNode(evaluator)`: `evaluator_() ? Success : Failure`. -/
def ConditionNode {σ : Type} (evaluator : σ → Bool × σ) : BehaviorNode σ :=
  fun s =>
    match evaluator s with
    | (true, s') => (Success, s')
    | (false, s') => (Failure, s')

/-- `Fallback(nodes...)`: the range-for over `children_` with its `switch`. -/
def Fallback {σ : Type} : List (BehaviorNode σ) → BehaviorNode σ
  | [], s => (Failure, s)
  | child :: rest, s =>
    match child s with
    | (Success, s') => (Success, s')
    | (Running, s') => (Running, s')
    | (Failure, s') => Fallback rest s'

/-- `Sequence(nodes...)`: the range-for over `children_` with its `switch`. -/
def Sequence {σ : Type} : List (BehaviorNode σ) → BehaviorNode σ
  | [], s => (Success, s)
  | child :: rest, s =>
    match child s with
    | (Failure, s') => (Failure, s')
    | (Running, s') => (Running, s')
    | (Success, s') => Sequence rest s'

/-- The loop of `Parallel`, started with the counter at `successes`:
`case Success: successes++; break;` leaves the `switch` and goes on with the next child,
`case Running: return Running;` leaves the function, `default: continue;`.
After the last child: `(successes >= threshold_) ? Success : Failure`. -/
def Parallel.loop {σ : Type} (threshold_ : Nat) :
    List (BehaviorNode σ) → Nat → BehaviorNode σ
  | [], successes, s => (if successes ≥ threshold_ then Success else Failure, s)
  | child :: rest, successes, s =>
    match child s with
    | (Success, s') => Parallel.loop threshold_ rest ((successes + 1) % UNSIGNED_MOD) s'
    | (Running, s') => (Running, s')
    | (Failure, s') => Parallel.loop threshold_ rest successes s'

/-- `Parallel(threshold, nodes...)`: the parameter is `unsigned threshold`, so the argument
is stored modulo `2^32` in `threshold_`; then `unsigned successes = 0;` and the loop. -/
def Parallel {σ : Type} (threshold : Nat) (children_ : List (BehaviorNode σ)) :
    BehaviorNode σ :=
  Parallel.loop (threshold % UNSIGNED_MOD) children_ 0

end function

/-! ## Dynamic-dispatch engine (`inheritance.hpp`)

A `BehaviorNode` object is used through its virtual `operator()` only, so an object is
embedded as that member function. -/

namespace inheritance

/-- `class BehaviorNode` with `virtual bt::Status operator()() = 0`. -/
abbrev BehaviorNode (σ : Type) : Type := σ → Status × σ

/-- `using ActionNode = BehaviorNode`. -/
abbrev ActionNode (σ : Type) : Type := BehaviorNode σ

/-- `ConditionNode::operator()`: `evaluate() ? Success : Failure`, for the subclass's
`evaluate`. -/
def ConditionNode {σ : Type} (evaluate : σ → Bool × σ) : BehaviorNode σ :=
  fun s =>
    match evaluate s with
    | (true, s') => (Success, s')
    | (false, s') => (Failure, s')

/-- `Fallback::operator()`. -/
def Fallback {σ : Type} : List (BehaviorNode σ) → BehaviorNode σ
  | [], s => (Failure, s)
  | child :: rest, s =>
    match child s with
    | (Success, s') => (Success, s')
    | (Running, s') => (Running, s')
    | (Failure, s') => Fallback rest s'

/-- `Sequence::operator()`. -/
def Sequence {σ : Type} : List (BehaviorNode σ) → BehaviorNode σ
  | [], s => (Success, s)
  | child :: rest, s =>
    match child s with
    | (Failure, s') => (Failure, s')
    | (Running, s') => (Running, s')
    | (Success, s') => Sequence rest s'

/-- The loop of `Parallel::operator()`, started with the counter at `successes`. -/
def Parallel.loop {σ : Type} (threshold_ : Nat) :
    List (BehaviorNode σ) → Nat → BehaviorNode σ
  | [], successes, s => (if successes ≥ threshold_ then Success else Failure, s)
  | child :: rest, successes, s =>
    match child s with
    | (Success, s') => Parallel.loop threshold_ rest ((successes + 1) % UNSIGNED_MOD) s'
    | (Running, s') => (Running, s')
    | (Failure, s') => Parallel.loop threshold_ rest successes s'

/-- `Parallel::operator()`: the constructor takes `unsigned threshold`, so the argument is
stored modulo `2^32` in `threshold_`; then `unsigned successes = 0;` and the loop. -/
def Parallel {σ : Type} (threshold : Nat) (children_ : List (BehaviorNode σ)) :
    BehaviorNode σ :=
  Parallel.loop (threshold % UNSIGNED_MOD) children_ 0

end inheritance

/-! ## Static engine (`tuples.hpp`)

`iterate_tuple<Tuple, F, I>` is a function template: whether it has a body at all is
decided when it is instantiated (`std::get<I>(t)` needs `I < std::tuple_size_v<Tuple>`),
before anything runs.  An instantiation is therefore embedded as an `Option`: `none` when
the instantiation is ill-formed, `some body` otherwise. -/

namespace tuples

/-- `detail::iterate_tuple<Tuple, F, I>(t, f)`.  The tuple is a list of callables of one
type `α`; `f` reads and writes the state `τ` (the program state, plus what `f` captured by
reference).  `std::tuple_size_v<Tuple> - 1` is reached only when `std::get<I>(t)` exists,
so the tuple is non-empty there and the subtraction does not wrap. -/
def detail.iterate_tuple {α τ R : Type} (t : List α) (f : α → τ → (Bool × R) × τ)
    (I : Nat) : Option (τ → R × τ) :=
  match t.get? I with
  | none => none
  | some x =>
    if I < t.length - 1 then
      match detail.iterate_tuple t f (I + 1) with
      | none => none
      | some next =>
        some (fun s =>
          match f x s with
          | ((stop, result), s') => if !stop then next s' else (result, s'))
    else
      some (fun s =>
        match f x s with
        | ((_, result), s') => (result, s'))
termination_by t.length - I
decreasing_by omega

/-- A static node whose `operator()` instantiates. -/
abbrev BehaviorNode (σ : Type) : Type := σ → Status × σ

/-- `ConditionNode<F>::operator()`: `evaluator_() ? Success : Failure`. -/
def ConditionNode {σ : Type} (evaluator : σ → Bool × σ) : BehaviorNode σ :=
  fun s =>
    match evaluator s with
    | (true, s') => (Success, s')
    | (false, s') => (Failure, s')

/-- `Fallback<Behaviors...>::operator()`. -/
def Fallback {σ : Type} (children_ : List (BehaviorNode σ)) : Option (BehaviorNode σ) :=
  detail.iterate_tuple children_
    (fun behavior s =>
      match behavior s with
      | (result, s') => ((result == Success || result == Running, result), s'))
    0

/-- `Sequence<Behaviors...>::operator()`. -/
def Sequence {σ : Type} (children_ : List (BehaviorNode σ)) : Option (BehaviorNode σ) :=
  detail.iterate_tuple children_
    (fun behavior s =>
      match behavior s with
      | (result, s') => ((result == Failure || result == Running, result), s'))
    0

/-- `Parallel<Behaviors...>::operator()`.  The lambda captures `successes` by reference,
so the state it works on is the program state paired with that counter. -/
def Parallel {σ : Type} (threshold_ : Nat) (children_ : List (BehaviorNode σ)) :
    Option (BehaviorNode σ) :=
  match detail.iterate_tuple children_
      (fun behavior (st : σ × Nat) =>
        match behavior st.1 with
        | (result, s') =>
          ((result == Running, result),
            (s', if result == Success then (st.2 + 1) % SIZE_MOD else st.2)))
      0 with
  | none => none
  | some iterate =>
    some (fun s =>
      match iterate (s, 0) with
      | (result, (s', successes)) =>
        (if result == Running then Running
          else if successes ≥ threshold_ then Success else Failure, s'))

/-- One tick of a static node: `none` when its `operator()` does not instantiate. -/
def tick {σ : Type} (node : Option (BehaviorNode σ)) (s : σ) : Option (Status × σ) :=
  node.map (fun call => call s)

end tuples

/-! ## Trees: one shape, three engines -/

/-- The shape of a behavior tree: Condition and Action leaves under Fallback, Sequence and
Parallel composites, the children in construction order. -/
inductive Tree (σ : Type) : Type
  | condition (evaluator : σ → Bool × σ)
  | action (operation : σ → Status × σ)
  | fallback (children : List (Tree σ))
  | sequence (children : List (Tree σ))
  | parallel (threshold : Nat) (children : List (Tree σ))

mutual
/-- The tree as the closure engine builds it. -/
def Tree.toFunction {σ : Type} : Tree σ → function.BehaviorNode σ
  | .condition evaluator => function.ConditionNode evaluator
  | .action operation => operation
  | .fallback children => function.Fallback (Tree.toFunctionAll children)
  | .sequence children => function.Sequence (Tree.toFunctionAll children)
  | .parallel threshold children => function.Parallel threshold (Tree.toFunctionAll children)
/-- The children as the closure engine builds them. -/
def Tree.toFunctionAll {σ : Type} : List (Tree σ) → List (function.BehaviorNode σ)
  | [] => []
  | t :: ts => Tree.toFunction t :: Tree.toFunctionAll ts
end

mutual
/-- The tree as the dynamic-dispatch engine builds it (`MakeNode<...>(...)`). -/
def Tree.toInheritance {σ : Type} : Tree σ → inheritance.BehaviorNode σ
  | .condition evaluate => inheritance.ConditionNode evaluate
  | .action operation => operation
  | .fallback children => inheritance.Fallback (Tree.toInheritanceAll children)
  | .sequence children => inheritance.Sequence (Tree.toInheritanceAll children)
  | .parallel threshold children =>
    inheritance.Parallel threshold (Tree.toInheritanceAll children)
/-- The children as the dynamic-dispatch engine builds them. -/
def Tree.toInheritanceAll {σ : Type} : List (Tree σ) → List (inheritance.BehaviorNode σ)
  | [] => []
  | t :: ts => Tree.toInheritance t :: Tree.toInheritanceAll ts
end

mutual
/-- The tree as the static engine builds it: `none` when the `operator()` of the tree, or of
a subtree, does not instantiate. -/
def Tree.toTuples {σ : Type} : Tree σ → Option (tuples.BehaviorNode σ)
  | .condition evaluator => some (tuples.ConditionNode evaluator)
  | .action operation => some operation
  | .fallback children => (Tree.toTuplesAll children).bind tuples.Fallback
  | .sequence children => (Tree.toTuplesAll children).bind tuples.Sequence
  | .parallel threshold children =>
    (Tree.toTuplesAll children).bind (tuples.Parallel threshold)
/-- The children as the static engine builds them. -/
def Tree.toTuplesAll {σ : Type} : List (Tree σ) → Option (List (tuples.BehaviorNode σ))
  | [] => some []
  | t :: ts =>
    match Tree.toTuples t, Tree.toTuplesAll ts with
    | some node, some nodes => some (node :: nodes)
    | _, _ => none
end

mutual
/-- A tree that all three engines can build: every composite has at least one child (the
static engine evaluates element 0 of its tuple), and a Parallel has fewer children than the
`unsigned` success counter of the closure and dynamic-dispatch engines can count. -/
def Tree.Buildable {σ : Type} : Tree σ → Prop
  | .condition _ => True
  | .action _ => True
  | .fallback children => children ≠ [] ∧ Tree.BuildableAll children
  | .sequence children => children ≠ [] ∧ Tree.BuildableAll children
  | .parallel _ children =>
    children ≠ [] ∧ children.length < UNSIGNED_MOD ∧ Tree.BuildableAll children
/-- Every tree of the list is buildable. -/
def Tree.BuildableAll {σ : Type} : List (Tree σ) → Prop
  | [] => True
  | t :: ts => Tree.Buildable t ∧ Tree.BuildableAll ts
end

mutual
/-- The threshold of every Parallel of the tree is a value of `unsigned`, the type of the
threshold parameter in the closure and the dynamic-dispatch engine: the three engines are
given the same threshold only then. -/
def Tree.UnsignedThresholds {σ : Type} : Tree σ → Prop
  | .condition _ => True
  | .action _ => True
  | .fallback children => Tree.UnsignedThresholdsAll children
  | .sequence children => Tree.UnsignedThresholdsAll children
  | .parallel threshold children =>
    threshold < UNSIGNED_MOD ∧ Tree.UnsignedThresholdsAll children
/-- Every threshold in every tree of the list is a value of `unsigned`. -/
def Tree.UnsignedThresholdsAll {σ : Type} : List (Tree σ) → Prop
  | [] => True
  | t :: ts => Tree.UnsignedThresholds t ∧ Tree.UnsignedThresholdsAll ts
end

/-! ## Vocabulary of the properties -/

/-- The state after invoking each node of `cs` exactly once, in list order. -/
def invokeAll {σ : Type} (cs : List (σ → Status × σ)) (s : σ) : σ :=
  cs.foldl (fun st c => (c st).2) s

/-- The state in which child number `k` is invoked when a tick that starts in `s` invokes
the children `0, ..., k - 1` exactly once each, in order, and nothing else. -/
def stateBefore {σ : Type} (cs : List (σ → Status × σ)) (s : σ) (k : Nat) : σ :=
  invokeAll (cs.take k) s

/-- The status child number `k` returns when it is invoked after the children before it;
`none` when there is no child number `k`. -/
def outcomeAt {σ : Type} (cs : List (σ → Status × σ)) (s : σ) (k : Nat) : Option Status :=
  (cs.get? k).map (fun c => (c (stateBefore cs s k)).1)

/-- The tick result `r` is that of a composite that skips over children returning `skip`
and stops at the first child returning anything else: either some child `k` is the first
whose status is not `skip`, `r` carries that status and the state is the one left by the
children `0, ..., k`; or every child returns `skip`, `r` carries `skip` and the state is the
one left by all children. -/
def StopsAtFirstNot {σ : Type} (skip : Status) (cs : List (σ → Status × σ)) (s : σ)
    (r : Status × σ) : Prop :=
  (∃ k, k < cs.length ∧ (∀ i, i < k → outcomeAt cs s i = some skip) ∧
      outcomeAt cs s k = some r.1 ∧ r.1 ≠ skip ∧ r.2 = stateBefore cs s (k + 1)) ∨
  ((∀ i, i < cs.length → outcomeAt cs s i = some skip) ∧
      r = (skip, stateBefore cs s cs.length))

/-- Children with the given fixed outcomes over a log of invocations: child number `i`
appends `i` to the log and returns the `i`-th outcome. -/
def logged (outcomes : List Status) : List (List Nat → Status × List Nat) :=
  outcomes.enum.map (fun p => fun log => (p.2, log ++ [p.1]))

/-- The verdict the Parallel rule assigns to a list of child outcomes. -/
def parallelVerdict (threshold : Nat) (outcomes : List Status) : Status :=
  if Running ∈ outcomes then Running
  else if outcomes.count Success ≥ threshold then Success else Failure

/-- The Parallel loop with a success counter modulo `M`; the loops of the engines are
instances of it. -/
def parallelLoop {σ : Type} (M threshold : Nat) :
    List (σ → Status × σ) → Nat → σ → Status × σ
  | [], successes, s => (if successes ≥ threshold then Success else Failure, s)
  | child :: rest, successes, s =>
    match child s with
    | (Success, s') => parallelLoop M threshold rest ((successes + 1) % M) s'
    | (Running, s') => (Running, s')
    | (Failure, s') => parallelLoop M threshold rest successes s'

/-- The recursion of `iterate_tuple` from an element `x` with the elements `rest` after
it. -/
def iterateFrom {α τ R : Type} (f : α → τ → (Bool × R) × τ) : α → List α → τ → R × τ
  | x, [], s =>
    match f x s with
    | ((_, result), s') => (result, s')
  | x, y :: rest, s =>
    match f x s with
    | ((stop, result), s') => if !stop then iterateFrom f y rest s' else (result, s')

/-- The tick result `r` is that of a composite that invokes its children in order and stops
only at a child returning Running: either some child `k` is the first to return Running,
`r` is Running and the state is the one left by the children `0, ..., k`; or no child
returns Running, `r` is not Running and the state is the one left by all children. -/
def StopsAtFirstRunning {σ : Type} (cs : List (σ → Status × σ)) (s : σ)
    (r : Status × σ) : Prop :=
  (∃ k, k < cs.length ∧ (∀ i, i < k → outcomeAt cs s i ≠ some Running) ∧
      outcomeAt cs s k = some Running ∧ r = (Running, stateBefore cs s (k + 1))) ∨
  ((∀ i, i < cs.length → outcomeAt cs s i ≠ some Running) ∧
      r.1 ≠ Running ∧ r.2 = stateBefore cs s cs.length)

/-- A sample tree with the shape of the benchmark tree `Fallback(ok, Sequence(step1, step2))`
over a counter: `ok` reads the parity of the counter and advances it, `step1` returns
Success, `step2` adds ten and returns Success. -/
def sampleTree : Tree Nat :=
  .fallback
    [.condition (fun n => (n % 2 == 0, n + 1)),
     .sequence [.action (fun n => (Success, n)), .action (fun n => (Success, n + 10))]]

/-- The map that exchanges Success and Failure and fixes Running. -/
def Status.swap : Status → Status
  | Success => Failure
  | Failure => Success
  | Running => Running

/-- The child `c` with `Status.swap` applied to its outcome: the same effect on the state,
the exchanged status. -/
def swapOutcome {σ : Type} (c : σ → Status × σ) : σ → Status × σ :=
  fun s => ((c s).1.swap, (c s).2)

/-- A tick result with `Status.swap` applied to its status. -/
def swapResult {σ : Type} (r : Status × σ) : Status × σ :=
  (r.1.swap, r.2)

/-- The number of children that return Success in a tick that starts in `s` and invokes
every child once, in order. -/
def successCount {σ : Type} (cs : List (σ → Status × σ)) (s : σ) : Nat :=
  (List.range cs.length).countP (fun i => outcomeAt cs s i == some Success)

/-- The state after applying the step function `f` to the elements `0, ..., k - 1` of the
tuple `t` exactly once each, in index order. -/
def stepsBefore {α τ R : Type} (f : α → τ → (Bool × R) × τ) (t : List α) (s : τ)
    (k : Nat) : τ :=
  (t.take k).foldl (fun st x => (f x st).2) s

/-- The pair `(stop, result)` that `f` returns on element `k` when it is applied after the
elements before it; `none` when the tuple has no element `k`. -/
def stepAt {α τ R : Type} (f : α → τ → (Bool × R) × τ) (t : List α) (s : τ) (k : Nat) :
    Option (Bool × R) :=
  (t.get? k).map (fun x => (f x (stepsBefore f t s k)).1)

/-- The outcome `r` is that of applying `f` to the elements of `t` in index order and
stopping after the first element whose stop flag is true, or after the last element:
some element `k` is the last one `f` is applied to, every element before it had the stop
flag false, element `k` has the stop flag true or is the last element, `r` carries the
result component of the application to `k`, and the state is the one left by the
applications to `0, ..., k`. -/
def StopsAtFirstStop {α τ R : Type} (f : α → τ → (Bool × R) × τ) (t : List α) (s : τ)
    (r : R × τ) : Prop :=
  ∃ k, k < t.length ∧ (∀ i, i < k → ∃ res, stepAt f t s i = some (false, res)) ∧
    (∃ stop, stepAt f t s k = some (stop, r.1) ∧ (stop = true ∨ k + 1 = t.length)) ∧
    r.2 = stepsBefore f t s (k + 1)

/-- The statuses of `n` successive ticks of a node, in order, and the state after them: the
loop `for (auto _ : state) { tree(); }` of the benchmarks. -/
def ticks {σ : Type} (node : σ → Status × σ) : Nat → σ → List Status × σ
  | 0, s => ([], s)
  | n + 1, s => ((node s).1 :: (ticks node n (node s).2).1, (ticks node n (node s).2).2)

/-- A node whose tick returns one and the same status from every state and leaves the
state as it was. -/
def PureNode {σ : Type} (node : σ → Status × σ) : Prop :=
  ∃ o, ∀ s, node s = (o, s)

mutual
/-- Every leaf of the tree is pure: its outcome does not depend on the state and it does
not change the state. -/
def Tree.PureLeaves {σ : Type} : Tree σ → Prop
  | .condition evaluator => ∃ b, ∀ s, evaluator s = (b, s)
  | .action operation => ∃ o, ∀ s, operation s = (o, s)
  | .fallback children => Tree.PureLeavesAll children
  | .sequence children => Tree.PureLeavesAll children
  | .parallel _ children => Tree.PureLeavesAll children
/-- Every leaf of every tree of the list is pure. -/
def Tree.PureLeavesAll {σ : Type} : List (Tree σ) → Prop
  | [] => True
  | t :: ts => Tree.PureLeaves t ∧ Tree.PureLeavesAll ts
end

/-- A sample tree with pure leaves: a failing condition, then a Parallel over a Running and a
succeeding action. -/
def pureTree : Tree Nat :=
  .fallback
    [.condition (fun n => (false, n)),
     .parallel 1 [.action (fun n => (Running, n)), .action (fun n => (Success, n))]]

/-! ## The benchmark (`bench.cpp`)

The state of the benchmark is the state `ρ` of the boolean source paired with `int count`.
The boolean source is a parameter `random_boolean : ρ → Bool × ρ`; the one of `bench.cpp`
is `random_boolean` below. -/

/-- The largest `int`. -/
def INT_MAX : Int := 2 ^ 31 - 1

/-- The smallest `int`. -/
def INT_MIN : Int := -(2 ^ 31)

/-- The `int` that represents the mathematical value `x`, in two's complement. -/
def wrap_int (x : Int) : Int := (x + 2 ^ 31) % 2 ^ 32 - 2 ^ 31

/-- `random_boolean()` of `bench.cpp`: `return bools[i++ % bools.size()];` over the static
table `bools` of 256 entries and the static `std::size_t i`. -/
def random_boolean (bools : Nat → Bool) : Nat → Bool × Nat :=
  fun i => (bools (i % 256), (i + 1) % SIZE_MOD)

namespace inheritance_bench

/-- `OkNode::evaluate`: `return random_boolean();`. -/
def OkNode.evaluate {ρ : Type} (random_boolean : ρ → Bool × ρ) :
    ρ × Int → Bool × (ρ × Int) :=
  fun st =>
    match random_boolean st.1 with
    | (b, r') => (b, (r', st.2))

/-- `Step1Node::operator()`: `return bt::Success;`. -/
def Step1Node {ρ : Type} : inheritance.ActionNode (ρ × Int) :=
  fun st => (Success, st)

/-- `Step2Node::operator()`: `count++; return bt::Success;`. -/
def Step2Node {ρ : Type} : inheritance.ActionNode (ρ × Int) :=
  fun st => (Success, (st.1, wrap_int (st.2 + 1)))

/-- The tree of `oop_style`:
`MakeNode<Fallback>(ok, MakeNode<Sequence>(MakeNode<Step1Node>(), MakeNode<Step2Node>()))`. -/
def inheritance_tree {ρ : Type} (random_boolean : ρ → Bool × ρ) :
    inheritance.BehaviorNode (ρ × Int) :=
  inheritance.Fallback
    [inheritance.ConditionNode (OkNode.evaluate random_boolean),
     inheritance.Sequence [Step1Node, Step2Node]]

end inheritance_bench

namespace functional_bench

/-- The tree of `functions`: `Fallback(ok, seq)` with
`ok = ConditionNode([]{ return random_boolean(); })` and
`seq = Sequence([]{ return bt::Success; }, [&]{ count++; return bt::Success; })`. -/
def functional_tree {ρ : Type} (random_boolean : ρ → Bool × ρ) :
    function.BehaviorNode (ρ × Int) :=
  function.Fallback
    [function.ConditionNode
        (fun st =>
          match random_boolean st.1 with
          | (b, r') => (b, (r', st.2))),
     function.Sequence
        [fun st => (Success, st), fun st => (Success, (st.1, wrap_int (st.2 + 1)))]]

end functional_bench

namespace tuple_bench

/-- The tree of `tuples`: `Fallback(ok, seq)` with the same `ok` and `seq`, built by the
static engine. -/
def tuple_tree {ρ : Type} (random_boolean : ρ → Bool × ρ) :
    Option (tuples.BehaviorNode (ρ × Int)) :=
  match tuples.Sequence
      [fun st => (Success, st), fun st => (Success, (st.1, wrap_int (st.2 + 1)))] with
  | none => none
  | some seq =>
    tuples.Fallback
      [tuples.ConditionNode
          (fun st =>
            match random_boolean st.1 with
            | (b, r') => (b, (r', st.2))),
       seq]

end tuple_bench

/-- The loop body of `default_implementation`:
`bool b = !random_boolean(); if (b) count++;`. -/
def default_implementation {ρ : Type} (random_boolean : ρ → Bool × ρ) :
    ρ × Int → ρ × Int :=
  fun st =>
    match random_boolean st.1 with
    | (rb, r') => if (!rb) = true then (r', wrap_int (st.2 + 1)) else (r', st.2)

/-- The booleans the source yields in `n` successive calls, in order. -/
def drawn {ρ : Type} (random_boolean : ρ → Bool × ρ) : Nat → ρ → List Bool
  | 0, _ => []
  | n + 1, r => (random_boolean r).1 :: drawn random_boolean n (random_boolean r).2

/-- The state of the source after `n` calls. -/
def sourceAfter {ρ : Type} (random_boolean : ρ → Bool × ρ) : Nat → ρ → ρ
  | 0, r => r
  | n + 1, r => sourceAfter random_boolean n (random_boolean r).2

/-! ## Lemmas -/

section Lemmas

variable {σ : Type}

theorem invokeAll_cons (c : σ → Status × σ) (cs : List (σ → Status × σ)) (s : σ) :
    invokeAll (c :: cs) s = invokeAll cs (c s).2 := rfl

theorem stateBefore_zero (cs : List (σ → Status × σ)) (s : σ) : stateBefore cs s 0 = s := by
  simp [stateBefore, invokeAll]

theorem stateBefore_succ (c : σ → Status × σ) (cs : List (σ → Status × σ)) (s : σ)
    (k : Nat) : stateBefore (c :: cs) s (k + 1) = stateBefore cs (c s).2 k := by
  simp [stateBefore, invokeAll]

theorem stateBefore_length (cs : List (σ → Status × σ)) (s : σ) :
    stateBefore cs s cs.length = invokeAll cs s := by
  simp [stateBefore]

theorem outcomeAt_zero (c : σ → Status × σ) (cs : List (σ → Status × σ)) (s : σ) :
    outcomeAt (c :: cs) s 0 = some (c s).1 := by
  simp [outcomeAt, stateBefore_zero]

theorem outcomeAt_succ (c : σ → Status × σ) (cs : List (σ → Status × σ)) (s : σ)
    (k : Nat) : outcomeAt (c :: cs) s (k + 1) = outcomeAt cs (c s).2 k := by
  simp [outcomeAt, stateBefore_succ]

/-- A composite over `c :: cs` that stops at `c`. -/
theorem stopsAtFirstNot_head (skip : Status) (c : σ → Status × σ)
    (cs : List (σ → Status × σ)) (s : σ) (h : (c s).1 ≠ skip) :
    StopsAtFirstNot skip (c :: cs) s (c s) := by
  refine Or.inl ⟨0, by simp, ?_, outcomeAt_zero c cs s, h, ?_⟩
  · intro i hi
    omega
  · rw [stateBefore_succ, stateBefore_zero]

/-- A composite over `c :: cs` that skips `c` behaves on the rest as a composite over
`cs`. -/
theorem stopsAtFirstNot_tail (skip : Status) (c : σ → Status × σ)
    (cs : List (σ → Status × σ)) (s : σ) (r : Status × σ) (h : (c s).1 = skip)
    (ih : StopsAtFirstNot skip cs (c s).2 r) : StopsAtFirstNot skip (c :: cs) s r := by
  rcases ih with ⟨k, hk, hall, hout, hne, hst⟩ | ⟨hall, hr⟩
  · refine Or.inl ⟨k + 1, by simpa using hk, ?_, ?_, hne, ?_⟩
    · intro i hi
      cases i with
      | zero => rw [outcomeAt_zero, h]
      | succ j => rw [outcomeAt_succ]; exact hall j (by omega)
    · rw [outcomeAt_succ]; exact hout
    · rw [stateBefore_succ]; exact hst
  · refine Or.inr ⟨?_, ?_⟩
    · intro i hi
      cases i with
      | zero => rw [outcomeAt_zero, h]
      | succ j =>
        rw [outcomeAt_succ]
        exact hall j (by simpa using hi)
    · rw [hr, List.length_cons, stateBefore_succ]

theorem function_fallback_stops (cs : List (σ → Status × σ)) (s : σ) :
    StopsAtFirstNot Failure cs s (function.Fallback cs s) := by
  induction cs generalizing s with
  | nil =>
    refine Or.inr ⟨?_, ?_⟩
    · intro i hi
      simp at hi
    · simp [function.Fallback, stateBefore_zero]
  | cons c cs ih =>
    rcases hc : c s with ⟨st, s'⟩
    cases st with
    | Success =>
      have := stopsAtFirstNot_head Failure c cs s (by rw [hc]; simp)
      simpa [function.Fallback, hc] using this
    | Running =>
      have := stopsAtFirstNot_head Failure c cs s (by rw [hc]; simp)
      simpa [function.Fallback, hc] using this
    | Failure =>
      have := stopsAtFirstNot_tail Failure c cs s _ (by rw [hc]) (ih (c s).2)
      simpa [function.Fallback, hc] using this

theorem function_sequence_stops (cs : List (σ → Status × σ)) (s : σ) :
    StopsAtFirstNot Success cs s (function.Sequence cs s) := by
  induction cs generalizing s with
  | nil =>
    refine Or.inr ⟨?_, ?_⟩
    · intro i hi
      simp at hi
    · simp [function.Sequence, stateBefore_zero]
  | cons c cs ih =>
    rcases hc : c s with ⟨st, s'⟩
    cases st with
    | Failure =>
      have := stopsAtFirstNot_head Success c cs s (by rw [hc]; simp)
      simpa [function.Sequence, hc] using this
    | Running =>
      have := stopsAtFirstNot_head Success c cs s (by rw [hc]; simp)
      simpa [function.Sequence, hc] using this
    | Success =>
      have := stopsAtFirstNot_tail Success c cs s _ (by rw [hc]) (ih (c s).2)
      simpa [function.Sequence, hc] using this

theorem inheritance_fallback_eq (cs : List (σ → Status × σ)) :
    inheritance.Fallback cs = function.Fallback cs := by
  induction cs with
  | nil => rfl
  | cons c cs ih =>
    funext s
    simp only [inheritance.Fallback, function.Fallback, ih]

theorem inheritance_sequence_eq (cs : List (σ → Status × σ)) :
    inheritance.Sequence cs = function.Sequence cs := by
  induction cs with
  | nil => rfl
  | cons c cs ih =>
    funext s
    simp only [inheritance.Sequence, function.Sequence, ih]

theorem function_parallel_loop_eq (threshold : Nat) (cs : List (σ → Status × σ)) (n : Nat) :
    function.Parallel.loop threshold cs n = parallelLoop UNSIGNED_MOD threshold cs n := by
  induction cs generalizing n with
  | nil => rfl
  | cons c cs ih =>
    funext s
    simp only [function.Parallel.loop, parallelLoop, ih]

theorem inheritance_parallel_loop_eq (threshold : Nat) (cs : List (σ → Status × σ))
    (n : Nat) :
    inheritance.Parallel.loop threshold cs n = parallelLoop UNSIGNED_MOD threshold cs n := by
  induction cs generalizing n with
  | nil => rfl
  | cons c cs ih =>
    funext s
    simp only [inheritance.Parallel.loop, parallelLoop, ih]

theorem function_parallel_eq (threshold : Nat) (cs : List (σ → Status × σ)) :
    function.Parallel threshold cs =
      parallelLoop UNSIGNED_MOD (threshold % UNSIGNED_MOD) cs 0 :=
  function_parallel_loop_eq (threshold % UNSIGNED_MOD) cs 0

/-- A threshold that is a value of `unsigned` is stored as it is. -/
theorem function_parallel_eq_of_lt (threshold : Nat) (cs : List (σ → Status × σ))
    (h : threshold < UNSIGNED_MOD) :
    function.Parallel threshold cs = parallelLoop UNSIGNED_MOD threshold cs 0 := by
  rw [function_parallel_eq, Nat.mod_eq_of_lt h]

theorem inheritance_parallel_eq (threshold : Nat) (cs : List (σ → Status × σ)) :
    inheritance.Parallel threshold cs =
      parallelLoop UNSIGNED_MOD (threshold % UNSIGNED_MOD) cs 0 :=
  inheritance_parallel_loop_eq (threshold % UNSIGNED_MOD) cs 0

/-- A threshold that is a value of `unsigned` is stored as it is. -/
theorem inheritance_parallel_eq_of_lt (threshold : Nat) (cs : List (σ → Status × σ))
    (h : threshold < UNSIGNED_MOD) :
    inheritance.Parallel threshold cs = parallelLoop UNSIGNED_MOD threshold cs 0 := by
  rw [inheritance_parallel_eq, Nat.mod_eq_of_lt h]

/-- The Parallel loop stops at the first Running child and at no other child. -/
theorem parallelLoop_stops (M threshold : Nat) (cs : List (σ → Status × σ)) (n : Nat)
    (s : σ) : StopsAtFirstRunning cs s (parallelLoop M threshold cs n s) := by
  induction cs generalizing n s with
  | nil =>
    refine Or.inr ⟨?_, ?_, ?_⟩
    · intro i hi
      simp at hi
    · simp only [parallelLoop]
      split <;> simp
    · simp [parallelLoop, stateBefore_zero]
  | cons c cs ih =>
    have step : ∀ m, (c s).1 ≠ Running →
        StopsAtFirstRunning (c :: cs) s (parallelLoop M threshold cs m (c s).2) := by
      intro m hne
      rcases ih m (c s).2 with ⟨k, hk, hall, hout, hr⟩ | ⟨hall, hne', hst⟩
      · refine Or.inl ⟨k + 1, by simpa using hk, ?_, ?_, ?_⟩
        · intro i hi
          cases i with
          | zero =>
            rw [outcomeAt_zero]
            simpa using hne
          | succ j => rw [outcomeAt_succ]; exact hall j (by omega)
        · rw [outcomeAt_succ]; exact hout
        · rw [hr, stateBefore_succ]
      · refine Or.inr ⟨?_, hne', ?_⟩
        · intro i hi
          cases i with
          | zero =>
            rw [outcomeAt_zero]
            simpa using hne
          | succ j =>
            rw [outcomeAt_succ]
            exact hall j (by simpa using hi)
        · rw [hst, List.length_cons, stateBefore_succ]
    rcases hc : c s with ⟨st, s'⟩
    cases st with
    | Success =>
      have := step ((n + 1) % M) (by rw [hc]; simp)
      simpa [parallelLoop, hc] using this
    | Failure =>
      have := step n (by rw [hc]; simp)
      simpa [parallelLoop, hc] using this
    | Running =>
      refine Or.inl ⟨0, by simp, ?_, ?_, ?_⟩
      · intro i hi
        omega
      · rw [outcomeAt_zero, hc]
      · simp [parallelLoop, hc, stateBefore_succ, stateBefore_zero]

/-- A counter modulo `M` never exceeds the number of children counted so far, so the loop
can return Success only if the threshold is within reach. -/
theorem parallelLoop_success_le (M threshold : Nat) (cs : List (σ → Status × σ)) (n : Nat)
    (s : σ) (h : (parallelLoop M threshold cs n s).1 = Success) :
    threshold ≤ n + cs.length := by
  induction cs generalizing n s with
  | nil =>
    simp only [parallelLoop] at h
    split at h
    · simpa using ‹n ≥ threshold›
    · simp at h
  | cons c cs ih =>
    rcases hc : c s with ⟨st, s'⟩
    cases st with
    | Success =>
      simp only [parallelLoop, hc] at h
      have := ih _ _ h
      by_cases hM : M = 0
      · subst hM
        simp only [Nat.mod_zero] at this
        simp only [List.length_cons]
        omega
      · have hle : (n + 1) % M ≤ n + 1 := Nat.mod_le _ _
        simp only [List.length_cons]
        omega
    | Failure =>
      simp only [parallelLoop, hc] at h
      have := ih _ _ h
      simp only [List.length_cons]
      omega
    | Running =>
      simp [parallelLoop, hc] at h

/-- While the counter cannot wrap, the loop returns the verdict of the Parallel rule on
the outcomes of its children. -/
theorem parallelLoop_fixed (M threshold : Nat) (cs : List (σ → Status × σ))
    (os : List Status) (hfix : List.Forall₂ (fun c o => ∀ s, (c s).1 = o) cs os) (n : Nat)
    (hn : n + cs.length < M) (s : σ) :
    (parallelLoop M threshold cs n s).1 =
      if Running ∈ os then Running
      else if n + os.count Success ≥ threshold then Success else Failure := by
  induction hfix generalizing n s with
  | nil => simp [parallelLoop]
  | @cons c o cs os hco _ ih =>
    simp only [List.length_cons] at hn
    rcases hc : c s with ⟨st, s'⟩
    have ho : o = st := by rw [← hco s, hc]
    subst ho
    cases o with
    | Success =>
      have hmod : (n + 1) % M = n + 1 := Nat.mod_eq_of_lt (by omega)
      simp only [parallelLoop, hc, hmod]
      rw [ih (n + 1) (by omega) s']
      simp [List.count_cons, Nat.add_comm, Nat.add_left_comm]
    | Failure =>
      simp only [parallelLoop, hc]
      rw [ih n (by omega) s']
      simp [List.count_cons]
    | Running =>
      simp [parallelLoop, hc]

/-- While neither counter can wrap, the modulus of the counter does not matter. -/
theorem parallelLoop_modulus (M M' threshold : Nat) (cs : List (σ → Status × σ)) (n : Nat)
    (hM : n + cs.length < M) (hM' : n + cs.length < M') (s : σ) :
    parallelLoop M threshold cs n s = parallelLoop M' threshold cs n s := by
  induction cs generalizing n s with
  | nil => rfl
  | cons c cs ih =>
    simp only [List.length_cons] at hM hM'
    rcases hc : c s with ⟨st, s'⟩
    cases st with
    | Success =>
      have h1 : (n + 1) % M = n + 1 := Nat.mod_eq_of_lt (by omega)
      have h2 : (n + 1) % M' = n + 1 := Nat.mod_eq_of_lt (by omega)
      simp only [parallelLoop, hc, h1, h2]
      exact ih (n + 1) (by omega) (by omega) s'
    | Failure =>
      simp only [parallelLoop, hc]
      exact ih n (by omega) (by omega) s'
    | Running =>
      simp only [parallelLoop, hc]

/-- On an empty tuple no instantiation of `iterate_tuple` is well-formed. -/
theorem iterate_tuple_nil {α τ R : Type} (f : α → τ → (Bool × R) × τ) (I : Nat) :
    tuples.detail.iterate_tuple ([] : List α) f I = none := by
  rw [tuples.detail.iterate_tuple]
  simp

/-- At an index inside the tuple, `iterate_tuple` instantiates, to the recursion over the
elements from that index on. -/
theorem iterate_tuple_drop {α τ R : Type} (f : α → τ → (Bool × R) × τ) (t : List α)
    (rest : List α) (x : α) (I : Nat) (h : t.drop I = x :: rest) :
    tuples.detail.iterate_tuple t f I = some (iterateFrom f x rest) := by
  induction rest generalizing x I with
  | nil =>
    have hlen : t.length - I = 1 := by
      have := congrArg List.length h
      simpa using this
    have hget : t.get? I = some x := by
      have := congrArg List.head? h
      simpa [List.head?_drop] using this
    rw [tuples.detail.iterate_tuple]
    have hnot : ¬ I < t.length - 1 := by omega
    simp only [hget, hnot, if_false]
    rfl
  | cons y rest ih =>
    have hlen : t.length - I = rest.length + 2 := by
      have := congrArg List.length h
      simpa using this
    have hget : t.get? I = some x := by
      have := congrArg List.head? h
      simpa [List.head?_drop] using this
    have hdrop : t.drop (I + 1) = y :: rest := by
      have := congrArg List.tail h
      simpa [List.tail_drop] using this
    rw [tuples.detail.iterate_tuple]
    have hlt : I < t.length - 1 := by omega
    simp only [hget, hlt, if_true, ih y (I + 1) hdrop]
    rfl

/-- On a non-empty tuple `iterate_tuple<Tuple, F, 0>` instantiates. -/
theorem iterate_tuple_cons {α τ R : Type} (f : α → τ → (Bool × R) × τ) (x : α)
    (rest : List α) :
    tuples.detail.iterate_tuple (x :: rest) f 0 = some (iterateFrom f x rest) :=
  iterate_tuple_drop f (x :: rest) rest x 0 rfl

theorem tuples_fallback_nil : tuples.Fallback ([] : List (σ → Status × σ)) = none :=
  iterate_tuple_nil _ 0

theorem tuples_sequence_nil : tuples.Sequence ([] : List (σ → Status × σ)) = none :=
  iterate_tuple_nil _ 0

theorem tuples_parallel_nil (threshold : Nat) :
    tuples.Parallel threshold ([] : List (σ → Status × σ)) = none := by
  simp [tuples.Parallel, iterate_tuple_nil]

/-- The static Fallback over a non-empty tuple runs the loop of the closure engine. -/
theorem tuples_fallback_cons (c : σ → Status × σ) (cs : List (σ → Status × σ)) :
    tuples.Fallback (c :: cs) = some (function.Fallback (c :: cs)) := by
  rw [tuples.Fallback, iterate_tuple_cons]
  congr 1
  funext s
  induction cs generalizing c s with
  | nil =>
    rcases hc : c s with ⟨st, s'⟩
    cases st <;> simp [iterateFrom, function.Fallback, hc]
  | cons d cs ih =>
    rcases hc : c s with ⟨st, s'⟩
    cases st with
    | Success => simp [iterateFrom, function.Fallback, hc]
    | Running => simp [iterateFrom, function.Fallback, hc]
    | Failure =>
      have := ih d s'
      simp only [iterateFrom, hc, function.Fallback] at this ⊢
      simpa using this

/-- The static Sequence over a non-empty tuple runs the loop of the closure engine. -/
theorem tuples_sequence_cons (c : σ → Status × σ) (cs : List (σ → Status × σ)) :
    tuples.Sequence (c :: cs) = some (function.Sequence (c :: cs)) := by
  rw [tuples.Sequence, iterate_tuple_cons]
  congr 1
  funext s
  induction cs generalizing c s with
  | nil =>
    rcases hc : c s with ⟨st, s'⟩
    cases st <;> simp [iterateFrom, function.Sequence, hc]
  | cons d cs ih =>
    rcases hc : c s with ⟨st, s'⟩
    cases st with
    | Failure => simp [iterateFrom, function.Sequence, hc]
    | Running => simp [iterateFrom, function.Sequence, hc]
    | Success =>
      have := ih d s'
      simp only [iterateFrom, hc, function.Sequence] at this ⊢
      simpa using this

/-- The static Parallel over a non-empty tuple runs the Parallel loop with a `size_t`
counter: the recursion stops at a Running child, and the final test on `result` gives
Running exactly then. -/
theorem tuples_parallel_cons (threshold : Nat) (c : σ → Status × σ)
    (cs : List (σ → Status × σ)) :
    tuples.Parallel threshold (c :: cs) =
      some (parallelLoop SIZE_MOD threshold (c :: cs) 0) := by
  rw [tuples.Parallel, iterate_tuple_cons]
  simp only
  congr 1
  funext s
  generalize (0 : Nat) = n
  induction cs generalizing c n s with
  | nil =>
    rcases hc : c s with ⟨st, s'⟩
    cases st <;> simp [iterateFrom, parallelLoop, hc]
  | cons d cs ih =>
    rcases hc : c s with ⟨st, s'⟩
    cases st with
    | Running => simp [iterateFrom, parallelLoop, hc]
    | Success =>
      have := ih d s' ((n + 1) % SIZE_MOD)
      simp only [iterateFrom, hc, parallelLoop] at this ⊢
      simpa using this
    | Failure =>
      have := ih d s' n
      simp only [iterateFrom, hc, parallelLoop] at this ⊢
      simpa using this

/-- One tick of a static composite over a non-empty tuple. -/
theorem tuples_tick_some (f : σ → Status × σ) (s : σ) :
    tuples.tick (some f) s = some (f s) := rfl

/-- The log a Parallel loop leaves over logging children: the indices up to and including
the first Running outcome, all indices when there is none. -/
theorem parallelLoop_logged (M threshold : Nat) (os : List Status) (n c : Nat)
    (log : List Nat) :
    (parallelLoop M threshold
        ((os.enumFrom n).map (fun p => fun (l : List Nat) => (p.2, l ++ [p.1]))) c log).2 =
      log ++ List.range' n (min (os.indexOf Running + 1) os.length) := by
  induction os generalizing n c log with
  | nil => simp [parallelLoop]
  | cons o os ih =>
    cases o with
    | Running => simp [parallelLoop, List.enumFrom, List.indexOf_cons, List.range']
    | Success =>
      simp only [List.enumFrom, List.map_cons, parallelLoop]
      rw [ih]
      simp [List.indexOf_cons, List.range'_succ, Nat.succ_min_succ]
    | Failure =>
      simp only [List.enumFrom, List.map_cons, parallelLoop]
      rw [ih]
      simp [List.indexOf_cons, List.range'_succ, Nat.succ_min_succ]

theorem toFunctionAll_length (ts : List (Tree σ)) :
    (Tree.toFunctionAll ts).length = ts.length := by
  induction ts with
  | nil => simp [Tree.toFunctionAll]
  | cons t ts ih => simp [Tree.toFunctionAll, ih]

theorem toFunctionAll_ne_nil (ts : List (Tree σ)) (h : ts ≠ []) :
    ∃ c cs, Tree.toFunctionAll ts = c :: cs := by
  cases ts with
  | nil => exact absurd rfl h
  | cons t ts => exact ⟨Tree.toFunction t, Tree.toFunctionAll ts, by simp only [Tree.toFunctionAll]⟩

mutual
/-- On a buildable tree whose thresholds are values of `unsigned`, the dynamic-dispatch and
the static engine build the node of the closure engine. -/
theorem tree_engines_eq : ∀ (t : Tree σ), Tree.Buildable t → Tree.UnsignedThresholds t →
    Tree.toInheritance t = Tree.toFunction t ∧ Tree.toTuples t = some (Tree.toFunction t)
  | .condition _, _, _ => ⟨by simp only [Tree.toInheritance, Tree.toFunction]; rfl,
      by simp only [Tree.toTuples, Tree.toFunction]; rfl⟩
  | .action _, _, _ => ⟨by simp only [Tree.toInheritance, Tree.toFunction],
      by simp only [Tree.toTuples, Tree.toFunction]⟩
  | .fallback cs, h, hu => by
    simp only [Tree.Buildable] at h
    simp only [Tree.UnsignedThresholds] at hu
    obtain ⟨hne, hall⟩ := h
    obtain ⟨h1, h2⟩ := trees_engines_eq cs hall hu
    obtain ⟨c, rest, hc⟩ := toFunctionAll_ne_nil cs hne
    refine ⟨?_, ?_⟩
    · simp only [Tree.toInheritance, Tree.toFunction, h1, inheritance_fallback_eq]
    · simp only [Tree.toTuples, Tree.toFunction, h2, Option.some_bind, hc,
        tuples_fallback_cons]
  | .sequence cs, h, hu => by
    simp only [Tree.Buildable] at h
    simp only [Tree.UnsignedThresholds] at hu
    obtain ⟨hne, hall⟩ := h
    obtain ⟨h1, h2⟩ := trees_engines_eq cs hall hu
    obtain ⟨c, rest, hc⟩ := toFunctionAll_ne_nil cs hne
    refine ⟨?_, ?_⟩
    · simp only [Tree.toInheritance, Tree.toFunction, h1, inheritance_sequence_eq]
    · simp only [Tree.toTuples, Tree.toFunction, h2, Option.some_bind, hc,
        tuples_sequence_cons]
  | .parallel threshold cs, h, hu => by
    simp only [Tree.Buildable] at h
    simp only [Tree.UnsignedThresholds] at hu
    obtain ⟨hne, hlen, hall⟩ := h
    obtain ⟨hthr, hus⟩ := hu
    obtain ⟨h1, h2⟩ := trees_engines_eq cs hall hus
    obtain ⟨c, rest, hc⟩ := toFunctionAll_ne_nil cs hne
    have hlen' : (c :: rest).length < UNSIGNED_MOD := by
      rw [← hc, toFunctionAll_length]; exact hlen
    refine ⟨?_, ?_⟩
    · simp only [Tree.toInheritance, Tree.toFunction, h1, inheritance_parallel_eq,
        function_parallel_eq]
    · simp only [Tree.toTuples, Tree.toFunction, h2, Option.some_bind, hc,
        tuples_parallel_cons, function_parallel_eq_of_lt threshold _ hthr]
      congr 1
      funext s
      exact parallelLoop_modulus SIZE_MOD UNSIGNED_MOD threshold (c :: rest) 0
        (by simp only [UNSIGNED_MOD, SIZE_MOD] at hlen' ⊢; omega) (by simpa using hlen') s
/-- The same for the children of a composite. -/
theorem trees_engines_eq : ∀ (ts : List (Tree σ)), Tree.BuildableAll ts →
    Tree.UnsignedThresholdsAll ts →
    Tree.toInheritanceAll ts = Tree.toFunctionAll ts ∧
      Tree.toTuplesAll ts = some (Tree.toFunctionAll ts)
  | [], _, _ => ⟨by simp only [Tree.toInheritanceAll, Tree.toFunctionAll],
      by simp only [Tree.toTuplesAll, Tree.toFunctionAll]⟩
  | t :: ts, h, hu => by
    simp only [Tree.BuildableAll] at h
    simp only [Tree.UnsignedThresholdsAll] at hu
    obtain ⟨ht, hts⟩ := h
    obtain ⟨h1, h2⟩ := tree_engines_eq t ht hu.1
    obtain ⟨h3, h4⟩ := trees_engines_eq ts hts hu.2
    refine ⟨?_, ?_⟩
    · simp only [Tree.toInheritanceAll, Tree.toFunctionAll, h1, h3]
    · simp only [Tree.toTuplesAll, Tree.toFunctionAll, h2, h4]
end

mutual
/-- The static engine builds a node from every buildable tree, whatever its thresholds. -/
theorem toTuples_isSome : ∀ (t : Tree σ), Tree.Buildable t →
    ∃ node, Tree.toTuples t = some node
  | .condition evaluator, _ =>
    ⟨tuples.ConditionNode evaluator, by simp only [Tree.toTuples]⟩
  | .action operation, _ => ⟨operation, by simp only [Tree.toTuples]⟩
  | .fallback cs, h => by
    simp only [Tree.Buildable] at h
    obtain ⟨ns, hns, hlen⟩ := toTuplesAll_isSome cs h.2
    obtain ⟨c, rest, rfl⟩ := List.exists_cons_of_ne_nil
      (List.ne_nil_of_length_pos (by rw [hlen]; exact List.length_pos.mpr h.1))
    exact ⟨function.Fallback (c :: rest),
      by simp only [Tree.toTuples, hns, Option.some_bind, tuples_fallback_cons]⟩
  | .sequence cs, h => by
    simp only [Tree.Buildable] at h
    obtain ⟨ns, hns, hlen⟩ := toTuplesAll_isSome cs h.2
    obtain ⟨c, rest, rfl⟩ := List.exists_cons_of_ne_nil
      (List.ne_nil_of_length_pos (by rw [hlen]; exact List.length_pos.mpr h.1))
    exact ⟨function.Sequence (c :: rest),
      by simp only [Tree.toTuples, hns, Option.some_bind, tuples_sequence_cons]⟩
  | .parallel threshold cs, h => by
    simp only [Tree.Buildable] at h
    obtain ⟨ns, hns, hlen⟩ := toTuplesAll_isSome cs h.2.2
    obtain ⟨c, rest, rfl⟩ := List.exists_cons_of_ne_nil
      (List.ne_nil_of_length_pos (by rw [hlen]; exact List.length_pos.mpr h.1))
    exact ⟨parallelLoop SIZE_MOD threshold (c :: rest) 0,
      by simp only [Tree.toTuples, hns, Option.some_bind, tuples_parallel_cons]⟩
/-- The same for the children of a composite, one node per tree. -/
theorem toTuplesAll_isSome : ∀ (ts : List (Tree σ)), Tree.BuildableAll ts →
    ∃ nodes, Tree.toTuplesAll ts = some nodes ∧ nodes.length = ts.length
  | [], _ => ⟨[], by simp only [Tree.toTuplesAll], rfl⟩
  | t :: ts, h => by
    simp only [Tree.BuildableAll] at h
    obtain ⟨node, hnode⟩ := toTuples_isSome t h.1
    obtain ⟨nodes, hnodes, hlen⟩ := toTuplesAll_isSome ts h.2
    exact ⟨node :: nodes, by simp only [Tree.toTuplesAll, hnode, hnodes], by simp [hlen]⟩
end

/-- Sequence is Fallback seen through `Status.swap`. -/
theorem function_sequence_swap (cs : List (σ → Status × σ)) (s : σ) :
    function.Sequence cs s = swapResult (function.Fallback (cs.map swapOutcome) s) := by
  induction cs generalizing s with
  | nil => rfl
  | cons c cs ih =>
    rcases hc : c s with ⟨st, s'⟩
    cases st <;>
      simp [function.Sequence, function.Fallback, swapOutcome, swapResult, Status.swap, hc,
        ih]

/-- A Fallback over `xs ++ rest` runs `xs` and goes on with `rest` when `xs` fails. -/
theorem function_fallback_append (xs rest : List (σ → Status × σ)) (s : σ) :
    function.Fallback (xs ++ rest) s =
      match function.Fallback xs s with
      | (Failure, s') => function.Fallback rest s'
      | r => r := by
  induction xs generalizing s with
  | nil => simp [function.Fallback]
  | cons c xs ih =>
    rcases hc : c s with ⟨st, s'⟩
    cases st <;> simp [function.Fallback, hc, ih]

/-- A Sequence over `xs ++ rest` runs `xs` and goes on with `rest` when `xs` succeeds. -/
theorem function_sequence_append (xs rest : List (σ → Status × σ)) (s : σ) :
    function.Sequence (xs ++ rest) s =
      match function.Sequence xs s with
      | (Success, s') => function.Sequence rest s'
      | r => r := by
  induction xs generalizing s with
  | nil => simp [function.Sequence]
  | cons c xs ih =>
    rcases hc : c s with ⟨st, s'⟩
    cases st <;> simp [function.Sequence, hc, ih]

/-- A Fallback nested in a Fallback can be spliced into it. -/
theorem function_fallback_flatten (xs ys zs : List (σ → Status × σ)) :
    function.Fallback (xs ++ [function.Fallback ys] ++ zs) =
      function.Fallback (xs ++ ys ++ zs) := by
  funext s
  rw [List.append_assoc, List.append_assoc, function_fallback_append xs,
    function_fallback_append xs]
  rcases hx : function.Fallback xs s with ⟨st, s'⟩
  cases st <;> simp only []
  rw [function_fallback_append ys]
  simp only [List.singleton_append, function.Fallback]
  rcases hy : function.Fallback ys s' with ⟨st', s''⟩
  cases st' <;> simp only []
  rfl

/-- A Sequence nested in a Sequence can be spliced into it. -/
theorem function_sequence_flatten (xs ys zs : List (σ → Status × σ)) :
    function.Sequence (xs ++ [function.Sequence ys] ++ zs) =
      function.Sequence (xs ++ ys ++ zs) := by
  funext s
  rw [List.append_assoc, List.append_assoc, function_sequence_append xs,
    function_sequence_append xs]
  rcases hx : function.Sequence xs s with ⟨st, s'⟩
  cases st <;> simp only []
  rw [function_sequence_append ys]
  simp only [List.singleton_append, function.Sequence]
  rcases hy : function.Sequence ys s' with ⟨st', s''⟩
  cases st' <;> simp only []
  rfl

theorem successCount_cons (c : σ → Status × σ) (cs : List (σ → Status × σ)) (s : σ) :
    successCount (c :: cs) s =
      (if (c s).1 = Success then 1 else 0) + successCount cs (c s).2 := by
  simp only [successCount, List.length_cons, List.range_succ_eq_map, List.countP_cons,
    List.countP_map, outcomeAt_zero]
  have hfun : ((fun i => outcomeAt (c :: cs) s i == some Success) ∘ Nat.succ) =
      (fun i => outcomeAt cs (c s).2 i == some Success) := by
    funext i
    simp only [Function.comp, Nat.succ_eq_add_one, outcomeAt_succ]
  rw [hfun]
  by_cases h : (c s).1 = Success <;> simp [h, Nat.add_comm]

/-- While the counter cannot wrap and no child returns Running, the loop compares the
number of children that returned Success with the threshold. -/
theorem parallelLoop_count (M threshold : Nat) (cs : List (σ → Status × σ)) (n : Nat)
    (s : σ) (hno : ∀ i, i < cs.length → outcomeAt cs s i ≠ some Running)
    (hn : n + cs.length < M) :
    (parallelLoop M threshold cs n s).1 =
      if n + successCount cs s ≥ threshold then Success else Failure := by
  induction cs generalizing n s with
  | nil => simp [parallelLoop, successCount]
  | cons c cs ih =>
    simp only [List.length_cons] at hn
    have hrest : ∀ i, i < cs.length → outcomeAt cs (c s).2 i ≠ some Running := by
      intro i hi
      have := hno (i + 1) (by simpa using hi)
      rwa [outcomeAt_succ] at this
    have h0 := hno 0 (by simp)
    rw [outcomeAt_zero] at h0
    rw [successCount_cons]
    rcases hc : c s with ⟨st, s'⟩
    rw [hc] at h0 hrest
    cases st with
    | Success =>
      have hmod : (n + 1) % M = n + 1 := Nat.mod_eq_of_lt (by omega)
      simp only [parallelLoop, hc, hmod]
      rw [ih (n + 1) s' hrest (by omega)]
      simp [Nat.add_assoc]
    | Failure =>
      simp only [parallelLoop, hc]
      rw [ih n s' hrest (by omega)]
      simp
    | Running => simp at h0

theorem stepsBefore_zero {α τ R : Type} (f : α → τ → (Bool × R) × τ) (t : List α)
    (s : τ) : stepsBefore f t s 0 = s := by
  simp [stepsBefore]

theorem stepsBefore_succ {α τ R : Type} (f : α → τ → (Bool × R) × τ) (x : α) (t : List α)
    (s : τ) (k : Nat) :
    stepsBefore f (x :: t) s (k + 1) = stepsBefore f t (f x s).2 k := by
  simp [stepsBefore]

theorem stepAt_zero {α τ R : Type} (f : α → τ → (Bool × R) × τ) (x : α) (t : List α)
    (s : τ) : stepAt f (x :: t) s 0 = some (f x s).1 := by
  simp [stepAt, stepsBefore_zero]

theorem stepAt_succ {α τ R : Type} (f : α → τ → (Bool × R) × τ) (x : α) (t : List α)
    (s : τ) (k : Nat) : stepAt f (x :: t) s (k + 1) = stepAt f t (f x s).2 k := by
  simp [stepAt, stepsBefore_succ]

/-- The recursion from `x` over `x :: rest` stops after the first stop flag or after the
last element. -/
theorem iterateFrom_stops {α τ R : Type} (f : α → τ → (Bool × R) × τ) (x : α)
    (rest : List α) (s : τ) : StopsAtFirstStop f (x :: rest) s (iterateFrom f x rest s) := by
  induction rest generalizing x s with
  | nil =>
    refine ⟨0, by simp, ?_, ⟨(f x s).1.1, ?_, Or.inr rfl⟩, ?_⟩
    · intro i hi
      omega
    · rw [stepAt_zero]; rfl
    · rw [stepsBefore_succ, stepsBefore_zero]; rfl
  | cons y rest ih =>
    rcases hf : f x s with ⟨⟨stop, result⟩, s'⟩
    cases stop with
    | true =>
      refine ⟨0, by simp, ?_, ⟨true, ?_, Or.inl rfl⟩, ?_⟩
      · intro i hi
        omega
      · rw [stepAt_zero, hf]; simp [iterateFrom, hf]
      · rw [stepsBefore_succ, stepsBefore_zero, hf]; simp [iterateFrom, hf]
    | false =>
      have hit : iterateFrom f x (y :: rest) s = iterateFrom f y rest s' := by
        simp [iterateFrom, hf]
      obtain ⟨k, hk, hall, ⟨stop, hstop, hlast⟩, hst⟩ := ih y s'
      rw [hit]
      refine ⟨k + 1, by simpa using hk, ?_, ⟨stop, ?_, ?_⟩, ?_⟩
      · intro i hi
        cases i with
        | zero => exact ⟨result, by rw [stepAt_zero, hf]⟩
        | succ j =>
          rw [stepAt_succ, hf]
          exact hall j (by omega)
      · rw [stepAt_succ, hf]; exact hstop
      · rcases hlast with h | h
        · exact Or.inl h
        · exact Or.inr (by simpa using h)
      · rw [stepsBefore_succ, hf]; exact hst

/-- Past the end of the tuple no instantiation of `iterate_tuple` is well-formed. -/
theorem iterate_tuple_past_end {α τ R : Type} (f : α → τ → (Bool × R) × τ) (t : List α)
    (I : Nat) (h : t.length ≤ I) : tuples.detail.iterate_tuple t f I = none := by
  rw [tuples.detail.iterate_tuple]
  have hget : t.get? I = none := by simpa using h
  simp only [hget]

/-- At every index inside the tuple `iterate_tuple` instantiates. -/
theorem iterate_tuple_inside {α τ R : Type} (f : α → τ → (Bool × R) × τ) (t : List α)
    (I : Nat) (h : I < t.length) :
    ∃ x rest, t.drop I = x :: rest ∧
      tuples.detail.iterate_tuple t f I = some (iterateFrom f x rest) := by
  have hne : t.drop I ≠ [] := by
    intro hnil
    have := congrArg List.length hnil
    simp at this
    omega
  obtain ⟨x, rest, hd⟩ := List.exists_cons_of_ne_nil hne
  exact ⟨x, rest, hd, iterate_tuple_drop f t rest x I hd⟩

/-- A Fallback over pure nodes is pure. -/
theorem pureNode_fallback (cs : List (σ → Status × σ)) (h : ∀ c, c ∈ cs → PureNode c) :
    PureNode (function.Fallback cs) := by
  induction cs with
  | nil => exact ⟨Failure, fun _ => rfl⟩
  | cons c cs ih =>
    obtain ⟨o, ho⟩ := h c (List.mem_cons_self c cs)
    obtain ⟨o', ho'⟩ := ih (fun d hd => h d (List.mem_cons_of_mem c hd))
    cases o with
    | Success => exact ⟨Success, fun s => by simp [function.Fallback, ho s]⟩
    | Running => exact ⟨Running, fun s => by simp [function.Fallback, ho s]⟩
    | Failure => exact ⟨o', fun s => by simp [function.Fallback, ho s, ho' s]⟩

/-- A Sequence over pure nodes is pure. -/
theorem pureNode_sequence (cs : List (σ → Status × σ)) (h : ∀ c, c ∈ cs → PureNode c) :
    PureNode (function.Sequence cs) := by
  induction cs with
  | nil => exact ⟨Success, fun _ => rfl⟩
  | cons c cs ih =>
    obtain ⟨o, ho⟩ := h c (List.mem_cons_self c cs)
    obtain ⟨o', ho'⟩ := ih (fun d hd => h d (List.mem_cons_of_mem c hd))
    cases o with
    | Failure => exact ⟨Failure, fun s => by simp [function.Sequence, ho s]⟩
    | Running => exact ⟨Running, fun s => by simp [function.Sequence, ho s]⟩
    | Success => exact ⟨o', fun s => by simp [function.Sequence, ho s, ho' s]⟩

/-- A Parallel loop over pure nodes is pure. -/
theorem pureNode_parallelLoop (M threshold : Nat) (cs : List (σ → Status × σ))
    (h : ∀ c, c ∈ cs → PureNode c) (n : Nat) : PureNode (parallelLoop M threshold cs n) := by
  induction cs generalizing n with
  | nil => exact ⟨if n ≥ threshold then Success else Failure, fun _ => rfl⟩
  | cons c cs ih =>
    obtain ⟨o, ho⟩ := h c (List.mem_cons_self c cs)
    have ih' := fun m => ih (fun d hd => h d (List.mem_cons_of_mem c hd)) m
    cases o with
    | Running => exact ⟨Running, fun s => by simp [parallelLoop, ho s]⟩
    | Success =>
      obtain ⟨o', ho'⟩ := ih' ((n + 1) % M)
      exact ⟨o', fun s => by simp [parallelLoop, ho s, ho' s]⟩
    | Failure =>
      obtain ⟨o', ho'⟩ := ih' n
      exact ⟨o', fun s => by simp [parallelLoop, ho s, ho' s]⟩

/-- Ticking a pure node again and again returns its status every time and leaves the
state as it was. -/
theorem ticks_pureNode (node : σ → Status × σ) (h : PureNode node) (N : Nat) (s : σ) :
    ticks node N s = (List.replicate N (node s).1, s) := by
  obtain ⟨o, ho⟩ := h
  induction N with
  | zero => rfl
  | succ n ih => simp [ticks, ho s, ih, List.replicate_succ] at ih ⊢

mutual
/-- The dynamic-dispatch engine builds the node of the closure engine, for every tree. -/
theorem toInheritance_eq : ∀ (t : Tree σ), Tree.toInheritance t = Tree.toFunction t
  | .condition _ => by simp only [Tree.toInheritance, Tree.toFunction]; rfl
  | .action _ => by simp only [Tree.toInheritance, Tree.toFunction]
  | .fallback cs => by
    simp only [Tree.toInheritance, Tree.toFunction, toInheritanceAll_eq cs,
      inheritance_fallback_eq]
  | .sequence cs => by
    simp only [Tree.toInheritance, Tree.toFunction, toInheritanceAll_eq cs,
      inheritance_sequence_eq]
  | .parallel threshold cs => by
    simp only [Tree.toInheritance, Tree.toFunction, toInheritanceAll_eq cs,
      inheritance_parallel_eq, function_parallel_eq]
/-- The same for the children of a composite. -/
theorem toInheritanceAll_eq : ∀ (ts : List (Tree σ)),
    Tree.toInheritanceAll ts = Tree.toFunctionAll ts
  | [] => by simp only [Tree.toInheritanceAll, Tree.toFunctionAll]
  | t :: ts => by
    simp only [Tree.toInheritanceAll, Tree.toFunctionAll, toInheritance_eq t,
      toInheritanceAll_eq ts]
end

mutual
/-- The closure engine builds a pure node from a tree with pure leaves. -/
theorem toFunction_pure : ∀ (t : Tree σ), Tree.PureLeaves t → PureNode (Tree.toFunction t)
  | .condition evaluator, h => by
    simp only [Tree.PureLeaves] at h
    obtain ⟨b, hb⟩ := h
    cases b with
    | true => exact ⟨Success, fun s => by simp [Tree.toFunction, function.ConditionNode, hb s]⟩
    | false => exact ⟨Failure, fun s => by simp [Tree.toFunction, function.ConditionNode, hb s]⟩
  | .action operation, h => by
    simp only [Tree.PureLeaves] at h
    simpa only [Tree.toFunction] using h
  | .fallback cs, h => by
    simp only [Tree.PureLeaves] at h
    simp only [Tree.toFunction]
    exact pureNode_fallback _ (toFunctionAll_pure cs h)
  | .sequence cs, h => by
    simp only [Tree.PureLeaves] at h
    simp only [Tree.toFunction]
    exact pureNode_sequence _ (toFunctionAll_pure cs h)
  | .parallel threshold cs, h => by
    simp only [Tree.PureLeaves] at h
    simp only [Tree.toFunction, function_parallel_eq]
    exact pureNode_parallelLoop _ _ _ (toFunctionAll_pure cs h) 0
/-- The same for the children of a composite. -/
theorem toFunctionAll_pure : ∀ (ts : List (Tree σ)), Tree.PureLeavesAll ts →
    ∀ c, c ∈ Tree.toFunctionAll ts → PureNode c
  | [], _ => by simp [Tree.toFunctionAll]
  | t :: ts, h => by
    simp only [Tree.PureLeavesAll] at h
    intro c hc
    simp only [Tree.toFunctionAll, List.mem_cons] at hc
    rcases hc with rfl | hc
    · exact toFunction_pure t h.1
    · exact toFunctionAll_pure ts h.2 c hc
end

mutual
/-- Whatever the static engine builds from a tree with pure leaves is a pure node. -/
theorem toTuples_pure : ∀ (t : Tree σ), Tree.PureLeaves t →
    ∀ n, Tree.toTuples t = some n → PureNode n
  | .condition evaluator, h, n, hn => by
    simp only [Tree.PureLeaves] at h
    simp only [Tree.toTuples, Option.some.injEq] at hn
    subst hn
    obtain ⟨b, hb⟩ := h
    cases b with
    | true => exact ⟨Success, fun s => by simp [tuples.ConditionNode, hb s]⟩
    | false => exact ⟨Failure, fun s => by simp [tuples.ConditionNode, hb s]⟩
  | .action operation, h, n, hn => by
    simp only [Tree.PureLeaves] at h
    simp only [Tree.toTuples, Option.some.injEq] at hn
    subst hn
    exact h
  | .fallback cs, h, n, hn => by
    simp only [Tree.PureLeaves] at h
    simp only [Tree.toTuples, Option.bind_eq_some] at hn
    obtain ⟨ns, hns, hn⟩ := hn
    have hp := toTuplesAll_pure cs h ns hns
    cases ns with
    | nil => simp [tuples_fallback_nil] at hn
    | cons c rest =>
      rw [tuples_fallback_cons, Option.some.injEq] at hn
      subst hn
      exact pureNode_fallback _ hp
  | .sequence cs, h, n, hn => by
    simp only [Tree.PureLeaves] at h
    simp only [Tree.toTuples, Option.bind_eq_some] at hn
    obtain ⟨ns, hns, hn⟩ := hn
    have hp := toTuplesAll_pure cs h ns hns
    cases ns with
    | nil => simp [tuples_sequence_nil] at hn
    | cons c rest =>
      rw [tuples_sequence_cons, Option.some.injEq] at hn
      subst hn
      exact pureNode_sequence _ hp
  | .parallel threshold cs, h, n, hn => by
    simp only [Tree.PureLeaves] at h
    simp only [Tree.toTuples, Option.bind_eq_some] at hn
    obtain ⟨ns, hns, hn⟩ := hn
    have hp := toTuplesAll_pure cs h ns hns
    cases ns with
    | nil => simp [tuples_parallel_nil] at hn
    | cons c rest =>
      rw [tuples_parallel_cons, Option.some.injEq] at hn
      subst hn
      exact pureNode_parallelLoop _ _ _ hp 0
/-- The same for the children of a composite. -/
theorem toTuplesAll_pure : ∀ (ts : List (Tree σ)), Tree.PureLeavesAll ts →
    ∀ ns, Tree.toTuplesAll ts = some ns → ∀ c, c ∈ ns → PureNode c
  | [], _, ns, hns => by
    simp only [Tree.toTuplesAll, Option.some.injEq] at hns
    subst hns
    simp
  | t :: ts, h, ns, hns => by
    simp only [Tree.PureLeavesAll] at h
    simp only [Tree.toTuplesAll] at hns
    split at hns
    · rename_i node nodes ht hts
      simp only [Option.some.injEq] at hns
      subst hns
      intro c hc
      simp only [List.mem_cons] at hc
      rcases hc with rfl | hc
      · exact toTuples_pure t h.1 c ht
      · exact toTuplesAll_pure ts h.2 nodes hts c hc
    · simp at hns
end

/-- An `int` increment that stays within the range of `int` is the mathematical one. -/
theorem wrap_int_succ (x : Int) (hmin : INT_MIN ≤ x) (hmax : x + 1 ≤ INT_MAX) :
    wrap_int (x + 1) = x + 1 := by
  simp only [INT_MIN, INT_MAX, wrap_int] at *
  omega

/-- A counter that every call of `op` increments by one has grown by `N` after `N`
ticks. -/
theorem ticks_counter (op : σ → Status × σ) (cnt : σ → Nat)
    (hinc : ∀ s, cnt (op s).2 = cnt s + 1) (N : Nat) (s : σ) :
    cnt (ticks op N s).2 = cnt s + N := by
  induction N generalizing s with
  | zero => rfl
  | succ n ih =>
    simp only [ticks]
    rw [ih (op s).2, hinc s]
    omega

/-- Ticking `Step2Node` `N` times adds `N` to `count`, as long as `count` stays an `int`. -/
theorem ticks_step2 {ρ : Type} (N : Nat) (r : ρ) (count : Int) (hmin : INT_MIN ≤ count)
    (hmax : count + N ≤ INT_MAX) :
    ticks (inheritance_bench.Step2Node (ρ := ρ)) N (r, count) =
      (List.replicate N Success, (r, count + N)) := by
  induction N generalizing count with
  | zero => simp [ticks]
  | succ n ih =>
    have hw : wrap_int (count + 1) = count + 1 :=
      wrap_int_succ count hmin (by push_cast at hmax; omega)
    simp only [ticks, inheritance_bench.Step2Node, hw]
    rw [ih (count + 1) (by omega) (by push_cast at hmax ⊢; omega)]
    simp only [List.replicate_succ, Prod.mk.injEq, true_and]
    push_cast
    omega

/-- One tick of the closure benchmark tree returns Success and does to the state what the
body of the reference loop does. -/
theorem functional_tree_tick {ρ : Type} (rb : ρ → Bool × ρ) (st : ρ × Int) :
    functional_bench.functional_tree rb st = (Success, default_implementation rb st) := by
  rcases hb : rb st.1 with ⟨b, r'⟩
  cases b <;>
    simp [functional_bench.functional_tree, function.Fallback, function.Sequence,
      function.ConditionNode, default_implementation, hb]

/-- The dynamic-dispatch benchmark tree is the closure benchmark tree. -/
theorem inheritance_tree_eq {ρ : Type} (rb : ρ → Bool × ρ) :
    inheritance_bench.inheritance_tree rb = functional_bench.functional_tree rb := by
  simp only [inheritance_bench.inheritance_tree, functional_bench.functional_tree,
    inheritance_fallback_eq, inheritance_sequence_eq]
  rfl

/-- The static benchmark tree instantiates, to the closure benchmark tree. -/
theorem tuple_tree_eq {ρ : Type} (rb : ρ → Bool × ρ) :
    tuple_bench.tuple_tree rb = some (functional_bench.functional_tree rb) := by
  simp only [tuple_bench.tuple_tree, tuples_sequence_cons, tuples_fallback_cons]
  rfl

/-- Ticking a node that does what the body of the reference loop does: every tick returns
Success, the source is called once per tick, and `count` grows by the number of `false`
drawn, as long as it stays an `int`. -/
theorem ticks_reference {ρ : Type} (rb : ρ → Bool × ρ) (node : ρ × Int → Status × (ρ × Int))
    (hnode : ∀ st, node st = (Success, default_implementation rb st)) (N : Nat) (r : ρ)
    (count : Int) (hmin : INT_MIN ≤ count)
    (hmax : count + ((drawn rb N r).count false : Nat) ≤ INT_MAX) :
    ticks node N (r, count) =
      (List.replicate N Success,
        (sourceAfter rb N r, count + ((drawn rb N r).count false : Nat))) := by
  induction N generalizing r count with
  | zero => simp [ticks, drawn, sourceAfter]
  | succ n ih =>
    rcases hb : rb r with ⟨b, r'⟩
    cases b with
    | true =>
      have hd : (drawn rb (n + 1) r).count false = (drawn rb n r').count false := by
        simp [drawn, hb]
      rw [hd] at hmax ⊢
      have hstep : default_implementation rb (r, count) = (r', count) := by
        simp [default_implementation, hb]
      simp only [ticks, hnode, hstep, sourceAfter, hb]
      rw [ih r' count hmin hmax]
      simp [List.replicate_succ]
    | false =>
      have hd : (drawn rb (n + 1) r).count false = (drawn rb n r').count false + 1 := by
        simp [drawn, hb]
      rw [hd] at hmax ⊢
      have hw : wrap_int (count + 1) = count + 1 :=
        wrap_int_succ count hmin (by push_cast at hmax; omega)
      have hstep : default_implementation rb (r, count) = (r', count + 1) := by
        simp [default_implementation, hb, hw]
      simp only [ticks, hnode, hstep, sourceAfter, hb]
      rw [ih r' (count + 1) (by omega) (by push_cast at hmax ⊢; omega)]
      simp only [List.replicate_succ, Prod.mk.injEq, true_and]
      push_cast
      omega

/-- Every boolean sequence is what some source yields: the source that plays the list
back. -/
theorem drawn_playback (bs : List Bool) :
    drawn (fun (l : List Bool) => (l.headD true, l.tail)) bs.length bs = bs := by
  induction bs with
  | nil => rfl
  | cons b bs ih =>
    simp only [List.length_cons, drawn, List.headD_cons, List.tail_cons, ih]

/-- An argument outside `unsigned` is not the threshold of the node: `Parallel(2^32, child)`
stores the threshold 0 in the closure and the dynamic-dispatch engine, so one succeeding
child is enough for Success, while the static engine, whose threshold is a `size_t`,
stores `2^32` and returns Failure. -/
theorem parallel_threshold_is_unsigned :
    function.Parallel (2 ^ 32) (logged [Success]) [] = (Success, [0]) ∧
    inheritance.Parallel (2 ^ 32) (logged [Success]) [] = (Success, [0]) ∧
    tuples.tick (tuples.Parallel (2 ^ 32) (logged [Success])) [] = some (Failure, [0]) := by
  refine ⟨by decide, by decide, ?_⟩
  simp only [logged, List.enum, List.enumFrom, List.map_cons, tuples_parallel_cons,
    tuples_tick_some]
  decide

end Lemmas

/-! ## The claims -/

section Claims

variable {σ : Type}

/-- C1. Fallback tick in the closure and the dynamic-dispatch engine, for every list of
children and every starting state: the result is the status of the first child, in
construction order, that returns Success or Running, and Failure if every child returns
Failure; the state left is the one left by invoking the children up to and including that
child, each once and in order, and no later child.  Children (F, F, S, R) give Success with
the children 0, 1, 2 invoked. -/
theorem fallback_stops_at_first_non_failure (cs : List (σ → Status × σ)) (s : σ) :
    StopsAtFirstNot Failure cs s (function.Fallback cs s) ∧
    StopsAtFirstNot Failure cs s (inheritance.Fallback cs s) ∧
    function.Fallback (logged [Failure, Failure, Success, Running]) [] =
      (Success, [0, 1, 2]) ∧
    inheritance.Fallback (logged [Failure, Failure, Success, Running]) [] =
      (Success, [0, 1, 2]) := by
  refine ⟨function_fallback_stops cs s, ?_, rfl, rfl⟩
  rw [inheritance_fallback_eq]
  exact function_fallback_stops cs s

/-- C2. Sequence tick in the closure and the dynamic-dispatch engine, for every list of
children and every starting state: the result is the status of the first child, in
construction order, that returns Failure or Running, and Success if every child returns
Success; the state left is the one left by invoking the children up to and including that
child, each once and in order, and no later child.  Children (S, S, F, R) give Failure with
the children 0, 1, 2 invoked; (S, S, S) gives Success. -/
theorem sequence_stops_at_first_non_success (cs : List (σ → Status × σ)) (s : σ) :
    StopsAtFirstNot Success cs s (function.Sequence cs s) ∧
    StopsAtFirstNot Success cs s (inheritance.Sequence cs s) ∧
    function.Sequence (logged [Success, Success, Failure, Running]) [] =
      (Failure, [0, 1, 2]) ∧
    inheritance.Sequence (logged [Success, Success, Failure, Running]) [] =
      (Failure, [0, 1, 2]) ∧
    function.Sequence (logged [Success, Success, Success]) [] = (Success, [0, 1, 2]) ∧
    inheritance.Sequence (logged [Success, Success, Success]) [] = (Success, [0, 1, 2]) := by
  refine ⟨function_sequence_stops cs s, ?_, rfl, rfl, rfl, rfl⟩
  rw [inheritance_sequence_eq]
  exact function_sequence_stops cs s

/-- C7. Condition leaf in all three engines, for every predicate and every starting state:
a tick returns Success if the predicate yields true and Failure if it yields false, leaves
the state one invocation of the predicate leaves, and never returns Running.  A predicate
that counts its calls is called once per tick. -/
theorem condition_maps_bool_to_status (evaluator : σ → Bool × σ) (s : σ) :
    (function.ConditionNode evaluator s =
        (if (evaluator s).1 = true then Success else Failure, (evaluator s).2) ∧
      inheritance.ConditionNode evaluator s =
        (if (evaluator s).1 = true then Success else Failure, (evaluator s).2) ∧
      tuples.ConditionNode evaluator s =
        (if (evaluator s).1 = true then Success else Failure, (evaluator s).2)) ∧
    ((function.ConditionNode evaluator s).1 ≠ Running ∧
      (inheritance.ConditionNode evaluator s).1 ≠ Running ∧
      (tuples.ConditionNode evaluator s).1 ≠ Running) ∧
    (function.ConditionNode (fun calls : Nat => (true, calls + 1)) 0 = (Success, 1) ∧
      inheritance.ConditionNode (fun calls : Nat => (true, calls + 1)) 0 = (Success, 1) ∧
      tuples.ConditionNode (fun calls : Nat => (true, calls + 1)) 0 = (Success, 1) ∧
      function.ConditionNode (fun calls : Nat => (false, calls + 1)) 0 = (Failure, 1) ∧
      inheritance.ConditionNode (fun calls : Nat => (false, calls + 1)) 0 = (Failure, 1) ∧
      tuples.ConditionNode (fun calls : Nat => (false, calls + 1)) 0 = (Failure, 1)) := by
  refine ⟨?_, ?_, ⟨rfl, rfl, rfl, rfl, rfl, rfl⟩⟩ <;>
  · rcases he : evaluator s with ⟨b, s'⟩
    cases b <;>
      simp [function.ConditionNode, inheritance.ConditionNode, tuples.ConditionNode, he]

/-- C8. Empty composites in the closure and the dynamic-dispatch engine: a Fallback with
zero children ticks to Failure and a Sequence with zero children ticks to Success, in every
state, and the state is left as it was (no child is invoked, nothing fails). -/
theorem empty_composites_tick_to_identity (s : σ) :
    function.Fallback ([] : List (function.BehaviorNode σ)) s = (Failure, s) ∧
    inheritance.Fallback ([] : List (inheritance.BehaviorNode σ)) s = (Failure, s) ∧
    function.Sequence ([] : List (function.BehaviorNode σ)) s = (Success, s) ∧
    inheritance.Sequence ([] : List (inheritance.BehaviorNode σ)) s = (Success, s) :=
  ⟨rfl, rfl, rfl, rfl⟩

/-- C3. Parallel verdict in all three engines, for every threshold (a value of `unsigned`
in the closure and the dynamic-dispatch engine, whose parameter is `unsigned threshold`)
and every list of children with fixed outcomes `os` (short enough for the success counter
of the engine, and non-empty in the static engine, whose tick exists only then): the tick
returns Running if some outcome is Running, otherwise Success when the number of Success
outcomes is at least the threshold and Failure when it is below.  Parallel(2) over
(S, F, S) is Success, Parallel(2) over (S, F, F) is Failure, Parallel(1) over (R, S, F) is
Running. -/
theorem parallel_verdict_from_outcomes (threshold : Nat) (cs : List (σ → Status × σ))
    (os : List Status) (hfix : List.Forall₂ (fun c o => ∀ s, (c s).1 = o) cs os) (s : σ) :
    (threshold < UNSIGNED_MOD → cs.length < UNSIGNED_MOD →
      (function.Parallel threshold cs s).1 = parallelVerdict threshold os ∧
      (inheritance.Parallel threshold cs s).1 = parallelVerdict threshold os) ∧
    (cs ≠ [] → cs.length < SIZE_MOD →
      ∃ r, tuples.tick (tuples.Parallel threshold cs) s = some r ∧
        r.1 = parallelVerdict threshold os) ∧
    ((function.Parallel 2 (logged [Success, Failure, Success]) []).1 = Success ∧
      (function.Parallel 2 (logged [Success, Failure, Failure]) []).1 = Failure ∧
      (function.Parallel 1 (logged [Running, Success, Failure]) []).1 = Running) ∧
    ((inheritance.Parallel 2 (logged [Success, Failure, Success]) []).1 = Success ∧
      (inheritance.Parallel 2 (logged [Success, Failure, Failure]) []).1 = Failure ∧
      (inheritance.Parallel 1 (logged [Running, Success, Failure]) []).1 = Running) ∧
    ((tuples.tick (tuples.Parallel 2 (logged [Success, Failure, Success])) []).map Prod.fst =
        some Success ∧
      (tuples.tick (tuples.Parallel 2 (logged [Success, Failure, Failure])) []).map Prod.fst =
        some Failure ∧
      (tuples.tick (tuples.Parallel 1 (logged [Running, Success, Failure])) []).map Prod.fst =
        some Running) := by
  refine ⟨?_, ?_, ⟨rfl, rfl, rfl⟩, ⟨rfl, rfl, rfl⟩, ?_, ?_, ?_⟩
  · intro hthr hlen
    rw [function_parallel_eq_of_lt threshold cs hthr,
      inheritance_parallel_eq_of_lt threshold cs hthr]
    have := parallelLoop_fixed UNSIGNED_MOD threshold cs os hfix 0 (by simpa using hlen) s
    simp only [Nat.zero_add] at this
    exact ⟨this, this⟩
  · intro hne hlen
    obtain ⟨c, rest, rfl⟩ := List.exists_cons_of_ne_nil hne
    rw [tuples_parallel_cons, tuples_tick_some]
    refine ⟨_, rfl, ?_⟩
    have := parallelLoop_fixed SIZE_MOD threshold (c :: rest) os hfix 0 (by simpa using hlen) s
    simp only [Nat.zero_add] at this
    exact this
  · simp only [logged, List.enum, List.enumFrom, List.map_cons, tuples_parallel_cons,
      tuples_tick_some]
    rfl
  · simp only [logged, List.enum, List.enumFrom, List.map_cons, tuples_parallel_cons,
      tuples_tick_some]
    rfl
  · simp only [logged, List.enum, List.enumFrom, List.map_cons, tuples_parallel_cons,
      tuples_tick_some]
    rfl

/-- C3, at Parallel(2) over the logging children (S, F, S). -/
theorem parallel_verdict_from_outcomes_witness :
    List.Forall₂ (fun c o => ∀ s, (c s).1 = o) (logged [Success, Failure, Success])
      [Success, Failure, Success] ∧
    2 < UNSIGNED_MOD ∧
    (logged [Success, Failure, Success]).length < UNSIGNED_MOD ∧
    logged [Success, Failure, Success] ≠ [] ∧
    (logged [Success, Failure, Success]).length < SIZE_MOD ∧
    (function.Parallel 2 (logged [Success, Failure, Success]) []).1 =
      parallelVerdict 2 [Success, Failure, Success] ∧
    (inheritance.Parallel 2 (logged [Success, Failure, Success]) []).1 =
      parallelVerdict 2 [Success, Failure, Success] ∧
    (∃ r, tuples.tick (tuples.Parallel 2 (logged [Success, Failure, Success])) [] = some r ∧
      r.1 = parallelVerdict 2 [Success, Failure, Success]) := by
  have hfix : List.Forall₂ (fun c o => ∀ s, (c s).1 = o)
      (logged [Success, Failure, Success]) [Success, Failure, Success] :=
    List.Forall₂.cons (fun _ => rfl) (List.Forall₂.cons (fun _ => rfl)
      (List.Forall₂.cons (fun _ => rfl) List.Forall₂.nil))
  have hthr : 2 < UNSIGNED_MOD := by decide
  have h32 : (logged [Success, Failure, Success]).length < UNSIGNED_MOD := by decide
  have hne : logged [Success, Failure, Success] ≠ [] := by simp [logged, List.enum]
  have h64 : (logged [Success, Failure, Success]).length < SIZE_MOD := by decide
  have h := parallel_verdict_from_outcomes 2 (logged [Success, Failure, Success])
    [Success, Failure, Success] hfix []
  exact ⟨hfix, hthr, h32, hne, h64, (h.1 hthr h32).1, (h.1 hthr h32).2, h.2.1 hne h64⟩

/-- C4, as stated, fails: in Parallel(1) over the logging children (R, S, F) the first
child returns Running and `case Running: return Running;` leaves the loop, so one tick
invokes child 0 only, not all three children. -/
theorem parallel_running_returns_at_once :
    function.Parallel 1 (logged [Running, Success, Failure]) [] = (Running, [0]) ∧
    inheritance.Parallel 1 (logged [Running, Success, Failure]) [] = (Running, [0]) ∧
    (function.Parallel 1 (logged [Running, Success, Failure]) []).2.length ≠
      (logged [Running, Success, Failure]).length ∧
    (inheritance.Parallel 1 (logged [Running, Success, Failure]) []).2.length ≠
      (logged [Running, Success, Failure]).length := by
  refine ⟨rfl, rfl, ?_, ?_⟩ <;> decide

/-- C4, amended. In the closure and the dynamic-dispatch engine one tick of a Parallel node
invokes its children in order, each once, up to and including the first child that returns
Running, and no child after it; the verdict is then Running.  When no child returns Running
every child is invoked exactly once and the verdict is not Running.  Over logging children
with outcomes `os` the children invoked are those with the indices below
`min (index of the first Running + 1) (number of children)`. -/
theorem parallel_invokes_up_to_first_running (threshold : Nat) (cs : List (σ → Status × σ))
    (s : σ) (os : List Status) :
    StopsAtFirstRunning cs s (function.Parallel threshold cs s) ∧
    StopsAtFirstRunning cs s (inheritance.Parallel threshold cs s) ∧
    (function.Parallel threshold (logged os) []).2 =
      List.range (min (os.indexOf Running + 1) os.length) ∧
    (inheritance.Parallel threshold (logged os) []).2 =
      List.range (min (os.indexOf Running + 1) os.length) := by
  rw [function_parallel_eq, inheritance_parallel_eq, function_parallel_eq,
    inheritance_parallel_eq]
  have hlog := parallelLoop_logged UNSIGNED_MOD (threshold % UNSIGNED_MOD) os 0 0 []
  simp only [List.nil_append, ← List.range_eq_range'] at hlog
  exact ⟨parallelLoop_stops _ _ cs 0 s, parallelLoop_stops _ _ cs 0 s, hlog, hlog⟩

/-- C5. Parallel does not stop on Success or Failure: in all three engines, for every
threshold and every list of children none of which returns Running in this tick (non-empty
in the static engine, whose tick exists only then), one tick leaves the state left by
invoking every child exactly once in construction order.  Parallel(2) over the logging
children (S, F, S) invokes the children 0, 1, 2. -/
theorem parallel_invokes_all_without_running (threshold : Nat)
    (cs : List (σ → Status × σ)) (s : σ)
    (hno : ∀ i, i < cs.length → outcomeAt cs s i ≠ some Running) :
    (function.Parallel threshold cs s).2 = invokeAll cs s ∧
    (inheritance.Parallel threshold cs s).2 = invokeAll cs s ∧
    (cs ≠ [] →
      ∃ r, tuples.tick (tuples.Parallel threshold cs) s = some r ∧ r.2 = invokeAll cs s) ∧
    function.Parallel 2 (logged [Success, Failure, Success]) [] = (Success, [0, 1, 2]) ∧
    inheritance.Parallel 2 (logged [Success, Failure, Success]) [] = (Success, [0, 1, 2]) ∧
    tuples.tick (tuples.Parallel 2 (logged [Success, Failure, Success])) [] =
      some (Success, [0, 1, 2]) := by
  have all : ∀ M thr, (parallelLoop M thr cs 0 s).2 = invokeAll cs s := by
    intro M thr
    rcases parallelLoop_stops M thr cs 0 s with ⟨k, hk, _, hout, _⟩ | ⟨_, _, hst⟩
    · exact absurd hout (hno k hk)
    · rw [hst, stateBefore_length]
  refine ⟨?_, ?_, ?_, rfl, rfl, ?_⟩
  · rw [function_parallel_eq]; exact all _ _
  · rw [inheritance_parallel_eq]; exact all _ _
  · intro hne
    obtain ⟨c, rest, hcs⟩ := List.exists_cons_of_ne_nil hne
    refine ⟨parallelLoop SIZE_MOD threshold cs 0 s, ?_, all _ _⟩
    rw [hcs, tuples_parallel_cons, tuples_tick_some]
  · simp only [logged, List.enum, List.enumFrom, List.map_cons, tuples_parallel_cons,
      tuples_tick_some]
    rfl

/-- C5, at Parallel(2) over the logging children (S, F, S). -/
theorem parallel_invokes_all_without_running_witness :
    (∀ i, i < (logged [Success, Failure, Success]).length →
      outcomeAt (logged [Success, Failure, Success]) [] i ≠ some Running) ∧
    logged [Success, Failure, Success] ≠ [] ∧
    (function.Parallel 2 (logged [Success, Failure, Success]) []).2 =
      invokeAll (logged [Success, Failure, Success]) [] ∧
    (inheritance.Parallel 2 (logged [Success, Failure, Success]) []).2 =
      invokeAll (logged [Success, Failure, Success]) [] ∧
    (∃ r, tuples.tick (tuples.Parallel 2 (logged [Success, Failure, Success])) [] = some r ∧
      r.2 = invokeAll (logged [Success, Failure, Success]) []) := by
  have hno : ∀ i, i < (logged [Success, Failure, Success]).length →
      outcomeAt (logged [Success, Failure, Success]) [] i ≠ some Running := by
    intro i hi
    have hi3 : i < 3 := hi
    interval_cases i <;> decide
  have hne : logged [Success, Failure, Success] ≠ [] := by simp [logged, List.enum]
  have h := parallel_invokes_all_without_running 2 (logged [Success, Failure, Success]) []
    hno
  exact ⟨hno, hne, h.1, h.2.1, h.2.2.1 hne⟩

/-- C6. The three engines agree: for every tree of Condition and Action leaves under
Fallback, Sequence and Parallel composites that all three engines can build (every
composite has at least one child, a Parallel fewer children than its `unsigned` counter can
count) with the same thresholds (every threshold a value of `unsigned`, the threshold type
of the closure and the dynamic-dispatch engine), with arbitrary state-dependent leaves and
from every state, a tick of the tree built by the dynamic-dispatch engine, by the closure
engine and by the static engine returns the same status and leaves the same state, hence
invokes the same leaves in the same order.  In particular, over a non-empty tuple the
`iterate_tuple` recursion of the static Fallback and Sequence, which returns the result of
the last child it evaluated, agrees with the loops that return a constant after the last
child. -/
theorem engines_agree_on_buildable_trees (t : Tree σ) (h : Tree.Buildable t)
    (hthr : Tree.UnsignedThresholds t) (s : σ) :
    Tree.toInheritance t s = Tree.toFunction t s ∧
    tuples.tick (Tree.toTuples t) s = some (Tree.toFunction t s) ∧
    (∀ (c : σ → Status × σ) (cs : List (σ → Status × σ)),
      tuples.tick (tuples.Fallback (c :: cs)) s = some (function.Fallback (c :: cs) s) ∧
      tuples.tick (tuples.Fallback (c :: cs)) s = some (inheritance.Fallback (c :: cs) s) ∧
      tuples.tick (tuples.Sequence (c :: cs)) s = some (function.Sequence (c :: cs) s) ∧
      tuples.tick (tuples.Sequence (c :: cs)) s =
        some (inheritance.Sequence (c :: cs) s)) := by
  obtain ⟨h1, h2⟩ := tree_engines_eq t h hthr
  refine ⟨by rw [h1], by rw [h2, tuples_tick_some], ?_⟩
  intro c cs
  rw [tuples_fallback_cons, tuples_sequence_cons, inheritance_fallback_eq,
    inheritance_sequence_eq]
  exact ⟨rfl, rfl, rfl, rfl⟩

/-- C6, at the sample tree `Fallback(ok, Sequence(step1, step2))` and an odd counter, where
`ok` fails and both steps run, and at the sample tree with a Parallel of threshold 1. -/
theorem engines_agree_on_buildable_trees_witness :
    (Tree.Buildable sampleTree ∧ Tree.UnsignedThresholds sampleTree ∧
      Tree.toInheritance sampleTree 1 = Tree.toFunction sampleTree 1 ∧
      tuples.tick (Tree.toTuples sampleTree) 1 = some (Tree.toFunction sampleTree 1) ∧
      Tree.toFunction sampleTree 1 = (Success, 12)) ∧
    (Tree.Buildable pureTree ∧ Tree.UnsignedThresholds pureTree ∧
      Tree.toInheritance pureTree 5 = Tree.toFunction pureTree 5 ∧
      tuples.tick (Tree.toTuples pureTree) 5 = some (Tree.toFunction pureTree 5) ∧
      Tree.toFunction pureTree 5 = (Running, 5)) := by
  have hb : Tree.Buildable sampleTree := by
    simp [sampleTree, Tree.Buildable, Tree.BuildableAll]
  have hu : Tree.UnsignedThresholds sampleTree := by
    simp [sampleTree, Tree.UnsignedThresholds, Tree.UnsignedThresholdsAll]
  have hb' : Tree.Buildable pureTree := by
    simp [pureTree, Tree.Buildable, Tree.BuildableAll, UNSIGNED_MOD]
  have hu' : Tree.UnsignedThresholds pureTree := by
    simp [pureTree, Tree.UnsignedThresholds, Tree.UnsignedThresholdsAll, UNSIGNED_MOD]
  have h := engines_agree_on_buildable_trees sampleTree hb hu 1
  have h' := engines_agree_on_buildable_trees pureTree hb' hu' 5
  refine ⟨⟨hb, hu, h.1, h.2.1, ?_⟩, ⟨hb', hu', h'.1, h'.2.1, ?_⟩⟩
  · simp [sampleTree, Tree.toFunction, Tree.toFunctionAll, function.Fallback,
      function.Sequence, function.ConditionNode]
  · simp [pureTree, Tree.toFunction, Tree.toFunctionAll, function.Fallback,
      function.Parallel, function.Parallel.loop, function.ConditionNode]

/-- C9, as stated, fails: over an empty child collection the static Fallback and the static
Sequence have no tick (`iterate_tuple` starts with `std::get<0>(t)`, which an empty tuple
does not have), so they tick neither to Failure nor to Success. -/
theorem static_empty_composites_have_no_tick :
    tuples.tick (tuples.Fallback ([] : List (tuples.BehaviorNode Unit))) () = none ∧
    tuples.tick (tuples.Sequence ([] : List (tuples.BehaviorNode Unit))) () = none ∧
    tuples.tick (tuples.Fallback ([] : List (tuples.BehaviorNode Unit))) () ≠
      some (Failure, ()) ∧
    tuples.tick (tuples.Sequence ([] : List (tuples.BehaviorNode Unit))) () ≠
      some (Success, ()) := by
  simp [tuples.tick, tuples_fallback_nil, tuples_sequence_nil]

/-- C9, amended. The static engine supports composites with at least one child only: the
tick of a static Fallback or Sequence exists exactly when the child collection is not
empty.  Over a non-empty collection it has the degenerate semantics of the other engines:
a Fallback whose children all return Failure ticks to Failure and a Sequence whose children
all return Success ticks to Success, every child invoked once. -/
theorem static_composites_need_a_child (cs : List (σ → Status × σ)) (s : σ) :
    (tuples.tick (tuples.Fallback cs) s = none ↔ cs = []) ∧
    (tuples.tick (tuples.Sequence cs) s = none ↔ cs = []) ∧
    (cs ≠ [] → (∀ i, i < cs.length → outcomeAt cs s i = some Failure) →
      tuples.tick (tuples.Fallback cs) s = some (Failure, invokeAll cs s)) ∧
    (cs ≠ [] → (∀ i, i < cs.length → outcomeAt cs s i = some Success) →
      tuples.tick (tuples.Sequence cs) s = some (Success, invokeAll cs s)) := by
  cases cs with
  | nil => simp [tuples.tick, tuples_fallback_nil, tuples_sequence_nil]
  | cons c cs =>
    rw [tuples_fallback_cons, tuples_sequence_cons]
    refine ⟨by simp [tuples.tick], by simp [tuples.tick], ?_, ?_⟩
    · intro _ hall
      rw [tuples_tick_some]
      rcases function_fallback_stops (c :: cs) s with ⟨k, hk, _, hout, hne, _⟩ | ⟨_, hr⟩
      · rw [hall k hk] at hout
        exact absurd (Option.some.inj hout).symm hne
      · rw [hr, stateBefore_length]
    · intro _ hall
      rw [tuples_tick_some]
      rcases function_sequence_stops (c :: cs) s with ⟨k, hk, _, hout, hne, _⟩ | ⟨_, hr⟩
      · rw [hall k hk] at hout
        exact absurd (Option.some.inj hout).symm hne
      · rw [hr, stateBefore_length]

/-- C9 amended, at the logging children (F, F) for Fallback; the Sequence part is applied
at the logging children (S, S) through the same theorem. -/
theorem static_composites_need_a_child_witness :
    logged [Failure, Failure] ≠ [] ∧
    (∀ i, i < (logged [Failure, Failure]).length →
      outcomeAt (logged [Failure, Failure]) [] i = some Failure) ∧
    tuples.tick (tuples.Fallback (logged [Failure, Failure])) [] =
      some (Failure, invokeAll (logged [Failure, Failure]) []) ∧
    logged [Success, Success] ≠ [] ∧
    (∀ i, i < (logged [Success, Success]).length →
      outcomeAt (logged [Success, Success]) [] i = some Success) ∧
    tuples.tick (tuples.Sequence (logged [Success, Success])) [] =
      some (Success, invokeAll (logged [Success, Success]) []) := by
  have hneF : logged [Failure, Failure] ≠ [] := by simp [logged, List.enum]
  have hneS : logged [Success, Success] ≠ [] := by simp [logged, List.enum]
  have hallF : ∀ i, i < (logged [Failure, Failure]).length →
      outcomeAt (logged [Failure, Failure]) [] i = some Failure := by
    intro i hi
    have hi2 : i < 2 := hi
    interval_cases i <;> rfl
  have hallS : ∀ i, i < (logged [Success, Success]).length →
      outcomeAt (logged [Success, Success]) [] i = some Success := by
    intro i hi
    have hi2 : i < 2 := hi
    interval_cases i <;> rfl
  exact ⟨hneF, hallF,
    (static_composites_need_a_child (logged [Failure, Failure]) []).2.2.1 hneF hallF,
    hneS, hallS,
    (static_composites_need_a_child (logged [Success, Success]) []).2.2.2 hneS hallS⟩

/-- C10. Unreachable threshold: for every Parallel node whose threshold is strictly greater
than its number of children, in every engine and from every state, no tick returns Success,
and every tick in which no child returns Running returns Failure.  The threshold of a
closure or dynamic-dispatch node is a value of `unsigned`, the type of its parameter; in the
static engine the tick exists when there is at least one child, whatever the threshold.  No
engine rejects such a threshold: the closure and dynamic-dispatch nodes are built for every
threshold, and the static `operator()` instantiates for every threshold. -/
theorem parallel_unreachable_threshold (threshold : Nat) (cs : List (σ → Status × σ))
    (s : σ) (hthr : cs.length < threshold) :
    (threshold < UNSIGNED_MOD →
      ((function.Parallel threshold cs s).1 ≠ Success ∧
        (inheritance.Parallel threshold cs s).1 ≠ Success) ∧
      ((∀ i, i < cs.length → outcomeAt cs s i ≠ some Running) →
        (function.Parallel threshold cs s).1 = Failure ∧
        (inheritance.Parallel threshold cs s).1 = Failure)) ∧
    ((∀ s', tuples.tick (tuples.Parallel threshold cs) s ≠ some (Success, s')) ∧
      ((∀ i, i < cs.length → outcomeAt cs s i ≠ some Running) → cs ≠ [] →
        ∃ r, tuples.tick (tuples.Parallel threshold cs) s = some r ∧ r.1 = Failure)) ∧
    (cs ≠ [] → (tuples.Parallel threshold cs).isSome = true) := by
  have noS : ∀ M, (parallelLoop M threshold cs 0 s).1 ≠ Success := by
    intro M hS
    have := parallelLoop_success_le M threshold cs 0 s hS
    omega
  have allF : ∀ M, (∀ i, i < cs.length → outcomeAt cs s i ≠ some Running) →
      (parallelLoop M threshold cs 0 s).1 = Failure := by
    intro M hno
    rcases parallelLoop_stops M threshold cs 0 s with ⟨k, hk, _, hout, _⟩ | ⟨_, hne, _⟩
    · exact absurd hout (hno k hk)
    · have hS := noS M
      cases hst : (parallelLoop M threshold cs 0 s).1 with
      | Success => exact absurd hst hS
      | Failure => rfl
      | Running => exact absurd hst hne
  refine ⟨?_, ⟨?_, ?_⟩, ?_⟩
  · intro hu
    rw [function_parallel_eq_of_lt threshold cs hu,
      inheritance_parallel_eq_of_lt threshold cs hu]
    exact ⟨⟨noS _, noS _⟩, fun hno => ⟨allF _ hno, allF _ hno⟩⟩
  · intro s' htick
    cases cs with
    | nil => simp [tuples.tick, tuples_parallel_nil] at htick
    | cons c cs =>
      rw [tuples_parallel_cons, tuples_tick_some] at htick
      exact noS SIZE_MOD (by rw [Option.some.inj htick])
  · intro hno hne
    obtain ⟨c, rest, hcs⟩ := List.exists_cons_of_ne_nil hne
    refine ⟨parallelLoop SIZE_MOD threshold cs 0 s, ?_, allF _ hno⟩
    rw [hcs, tuples_parallel_cons, tuples_tick_some]
  · intro hne
    obtain ⟨c, rest, hcs⟩ := List.exists_cons_of_ne_nil hne
    rw [hcs, tuples_parallel_cons]
    rfl

/-- C10, at Parallel(3) over the two logging children (S, S). -/
theorem parallel_unreachable_threshold_witness :
    (logged [Success, Success]).length < 3 ∧ 3 < UNSIGNED_MOD ∧
    (∀ i, i < (logged [Success, Success]).length →
      outcomeAt (logged [Success, Success]) [] i ≠ some Running) ∧
    logged [Success, Success] ≠ [] ∧
    ((function.Parallel 3 (logged [Success, Success]) []).1 ≠ Success ∧
      (inheritance.Parallel 3 (logged [Success, Success]) []).1 ≠ Success) ∧
    ((function.Parallel 3 (logged [Success, Success]) []).1 = Failure ∧
      (inheritance.Parallel 3 (logged [Success, Success]) []).1 = Failure) ∧
    (∃ r, tuples.tick (tuples.Parallel 3 (logged [Success, Success])) [] = some r ∧
      r.1 = Failure) ∧
    (tuples.Parallel 3 (logged [Success, Success])).isSome = true := by
  have hlen : (logged [Success, Success]).length < 3 := by decide
  have hu : 3 < UNSIGNED_MOD := by decide
  have hne : logged [Success, Success] ≠ [] := by simp [logged, List.enum]
  have hno : ∀ i, i < (logged [Success, Success]).length →
      outcomeAt (logged [Success, Success]) [] i ≠ some Running := by
    intro i hi
    have hi2 : i < 2 := hi
    interval_cases i <;> decide
  have h := parallel_unreachable_threshold 3 (logged [Success, Success]) [] hlen
  exact ⟨hlen, hu, hno, hne, (h.1 hu).1, (h.1 hu).2 hno, h.2.1.2 hno hne, h.2.2 hne⟩

/-- C11. Sequence is the dual of Fallback under `Status.swap`, the exchange of Success and
Failure that fixes Running: in each engine, for every list of children `cs` and every
state, the tick of Sequence over `cs` returns the swapped status of the tick of Fallback
over the children of `cs` with swapped outcomes, and both ticks leave the same state, hence
invoke the same children in the same order.  In the static engine both ticks exist for a
non-empty list, and neither exists for the empty one. -/
theorem sequence_is_swapped_fallback (cs : List (σ → Status × σ)) (s : σ) :
    function.Sequence cs s = swapResult (function.Fallback (cs.map swapOutcome) s) ∧
    inheritance.Sequence cs s = swapResult (inheritance.Fallback (cs.map swapOutcome) s) ∧
    tuples.tick (tuples.Sequence cs) s =
      (tuples.tick (tuples.Fallback (cs.map swapOutcome)) s).map swapResult ∧
    (∀ (c : σ → Status × σ) (rest : List (σ → Status × σ)),
      ∃ r, tuples.tick (tuples.Fallback ((c :: rest).map swapOutcome)) s = some r ∧
        tuples.tick (tuples.Sequence (c :: rest)) s = some (swapResult r)) ∧
    tuples.tick (tuples.Sequence (logged [Success, Failure, Running])) [] =
      some (Failure, [0, 1]) ∧
    tuples.tick (tuples.Fallback ((logged [Success, Failure, Running]).map swapOutcome)) [] =
      some (Success, [0, 1]) := by
  have hcons : ∀ (c : σ → Status × σ) (rest : List (σ → Status × σ)),
      tuples.tick (tuples.Fallback ((c :: rest).map swapOutcome)) s =
          some (function.Fallback ((c :: rest).map swapOutcome) s) ∧
        tuples.tick (tuples.Sequence (c :: rest)) s =
          some (swapResult (function.Fallback ((c :: rest).map swapOutcome) s)) := by
    intro c rest
    rw [List.map_cons, tuples_fallback_cons, tuples_sequence_cons, tuples_tick_some,
      tuples_tick_some, function_sequence_swap, List.map_cons]
    exact ⟨rfl, rfl⟩
  refine ⟨function_sequence_swap cs s, ?_, ?_, ?_, ?_, ?_⟩
  · rw [inheritance_sequence_eq, inheritance_fallback_eq]
    exact function_sequence_swap cs s
  · cases cs with
    | nil => simp [tuples.tick, tuples_fallback_nil, tuples_sequence_nil]
    | cons c rest =>
      rw [(hcons c rest).1, (hcons c rest).2]
      rfl
  · intro c rest
    exact ⟨_, (hcons c rest).1, (hcons c rest).2⟩
  · simp only [logged, List.enum, List.enumFrom, List.map_cons, tuples_sequence_cons,
      tuples_tick_some]
    rfl
  · simp only [logged, List.enum, List.enumFrom, List.map_cons, tuples_fallback_cons,
      tuples_tick_some]
    rfl

/-- C16. Nested composites of the same kind flatten, in the closure and the
dynamic-dispatch engine: for all child lists `xs`, `ys`, `zs` (also empty ones) and every
state, Fallback over `xs ++ [Fallback ys] ++ zs` and Fallback over `xs ++ ys ++ zs` return
the same status and leave the same state, hence invoke the same leaves in the same order;
likewise Sequence.  With `ys` empty the nested composite can be dropped. -/
theorem nested_composites_flatten (xs ys zs : List (σ → Status × σ)) (s : σ) :
    function.Fallback (xs ++ [function.Fallback ys] ++ zs) s =
      function.Fallback (xs ++ ys ++ zs) s ∧
    function.Sequence (xs ++ [function.Sequence ys] ++ zs) s =
      function.Sequence (xs ++ ys ++ zs) s ∧
    inheritance.Fallback (xs ++ [inheritance.Fallback ys] ++ zs) s =
      inheritance.Fallback (xs ++ ys ++ zs) s ∧
    inheritance.Sequence (xs ++ [inheritance.Sequence ys] ++ zs) s =
      inheritance.Sequence (xs ++ ys ++ zs) s ∧
    function.Fallback (xs ++ [function.Fallback []] ++ zs) s = function.Fallback (xs ++ zs) s ∧
    function.Sequence (xs ++ [function.Sequence []] ++ zs) s = function.Sequence (xs ++ zs) s ∧
    inheritance.Fallback (xs ++ [inheritance.Fallback []] ++ zs) s =
      inheritance.Fallback (xs ++ zs) s ∧
    inheritance.Sequence (xs ++ [inheritance.Sequence []] ++ zs) s =
      inheritance.Sequence (xs ++ zs) s := by
  simp only [inheritance_fallback_eq, inheritance_sequence_eq, function_fallback_flatten,
    function_sequence_flatten, List.append_nil, and_self]

/-- C17. A composite with a single child is transparent: for every child `x` and every
state, in each engine, the tick of Fallback(x), of Sequence(x) and of Parallel(1, x) is the
tick of `x`: the status `x` returned, whichever of the three it is, and the state one
invocation of `x` leaves. -/
theorem single_child_composite_is_transparent (x : σ → Status × σ) (s : σ) :
    (function.Fallback [x] s = x s ∧ function.Sequence [x] s = x s ∧
      function.Parallel 1 [x] s = x s) ∧
    (inheritance.Fallback [x] s = x s ∧ inheritance.Sequence [x] s = x s ∧
      inheritance.Parallel 1 [x] s = x s) ∧
    (tuples.tick (tuples.Fallback [x]) s = some (x s) ∧
      tuples.tick (tuples.Sequence [x]) s = some (x s) ∧
      tuples.tick (tuples.Parallel 1 [x]) s = some (x s)) := by
  rw [tuples_fallback_cons, tuples_sequence_cons, tuples_parallel_cons, tuples_tick_some,
    tuples_tick_some, tuples_tick_some, inheritance_fallback_eq, inheritance_sequence_eq,
    inheritance_parallel_eq, function_parallel_eq]
  rcases hx : x s with ⟨st, s'⟩
  cases st <;>
    simp [function.Fallback, function.Sequence, parallelLoop, hx, UNSIGNED_MOD, SIZE_MOD]

/-- C14. The static Parallel stops early only on Running: for every threshold, every
non-empty child collection and every state, its tick exists, invokes the children in
order, each once, up to and including the first child that returns Running and no child
after it (the verdict is then Running), and invokes all children when none returns Running;
a child returning Success or Failure never stops the recursion.  When no child returns
Running, the count compared with the threshold is the number of Success outcomes among the
children (for a collection within the range of the `size_t` counter).  Over the logging
children (S, R, S) the children 0 and 1 are invoked; over (S, F, S) all three. -/
theorem static_parallel_stops_only_on_running (threshold : Nat)
    (cs : List (σ → Status × σ)) (s : σ) (hne : cs ≠ []) :
    (∃ r, tuples.tick (tuples.Parallel threshold cs) s = some r ∧
      StopsAtFirstRunning cs s r ∧
      ((∀ i, i < cs.length → outcomeAt cs s i ≠ some Running) → cs.length < SIZE_MOD →
        r.1 = if successCount cs s ≥ threshold then Success else Failure)) ∧
    tuples.tick (tuples.Parallel 1 (logged [Success, Running, Success])) [] =
      some (Running, [0, 1]) ∧
    tuples.tick (tuples.Parallel 2 (logged [Success, Failure, Success])) [] =
      some (Success, [0, 1, 2]) ∧
    tuples.tick (tuples.Parallel 3 (logged [Success, Failure, Success])) [] =
      some (Failure, [0, 1, 2]) := by
  refine ⟨?_, ?_, ?_, ?_⟩
  · obtain ⟨c, rest, hcs⟩ := List.exists_cons_of_ne_nil hne
    refine ⟨parallelLoop SIZE_MOD threshold cs 0 s, ?_, parallelLoop_stops _ _ cs 0 s, ?_⟩
    · rw [hcs, tuples_parallel_cons, tuples_tick_some]
    · intro hno hlen
      have := parallelLoop_count SIZE_MOD threshold cs 0 s hno (by simpa using hlen)
      simpa using this
  · simp only [logged, List.enum, List.enumFrom, List.map_cons, tuples_parallel_cons,
      tuples_tick_some]
    rfl
  · simp only [logged, List.enum, List.enumFrom, List.map_cons, tuples_parallel_cons,
      tuples_tick_some]
    rfl
  · simp only [logged, List.enum, List.enumFrom, List.map_cons, tuples_parallel_cons,
      tuples_tick_some]
    rfl

/-- C14, at Parallel(2) over the logging children (S, F, S), none of which returns
Running. -/
theorem static_parallel_stops_only_on_running_witness :
    logged [Success, Failure, Success] ≠ [] ∧
    (∀ i, i < (logged [Success, Failure, Success]).length →
      outcomeAt (logged [Success, Failure, Success]) [] i ≠ some Running) ∧
    (logged [Success, Failure, Success]).length < SIZE_MOD ∧
    (∃ r, tuples.tick (tuples.Parallel 2 (logged [Success, Failure, Success])) [] = some r ∧
      StopsAtFirstRunning (logged [Success, Failure, Success]) [] r ∧
      r.1 = if successCount (logged [Success, Failure, Success]) [] ≥ 2 then Success
        else Failure) := by
  have hne : logged [Success, Failure, Success] ≠ [] := by simp [logged, List.enum]
  have hno : ∀ i, i < (logged [Success, Failure, Success]).length →
      outcomeAt (logged [Success, Failure, Success]) [] i ≠ some Running := by
    intro i hi
    have hi3 : i < 3 := hi
    interval_cases i <;> decide
  have h64 : (logged [Success, Failure, Success]).length < SIZE_MOD := by decide
  obtain ⟨r, hr, hstop, hcount⟩ :=
    (static_parallel_stops_only_on_running 2 (logged [Success, Failure, Success]) []
      hne).1
  exact ⟨hne, hno, h64, r, hr, hstop, hcount hno h64⟩

/-- C18. The recursion `iterate_tuple` over a non-empty tuple of `n` elements with a step
function `f` returning `(stop, result)`: `iterate_tuple<Tuple, F, 0>` instantiates, and from
every state it applies `f` to the elements 0, 1, ... in index order, stops after the first
element whose stop flag is true, or after element `n - 1` if there is none, applies `f` to
no later element, and returns the result component of the last application.  The recursion
on the index ends: every index below `n` instantiates to a body, by recursion on `n - I`
with `I` increasing, and no index from `n` on is instantiated. -/
theorem iterate_tuple_stops_at_first_stop {α τ R : Type} (f : α → τ → (Bool × R) × τ)
    (t : List α) (hne : t ≠ []) :
    (∃ body, tuples.detail.iterate_tuple t f 0 = some body ∧
      ∀ s, StopsAtFirstStop f t s (body s)) ∧
    (∀ I, I < t.length → ∃ body, tuples.detail.iterate_tuple t f I = some body) ∧
    (∀ I, t.length ≤ I → tuples.detail.iterate_tuple t f I = none) := by
  obtain ⟨x, rest, rfl⟩ := List.exists_cons_of_ne_nil hne
  refine ⟨⟨iterateFrom f x rest, iterate_tuple_cons f x rest, ?_⟩, ?_, ?_⟩
  · intro s
    exact iterateFrom_stops f x rest s
  · intro I hI
    obtain ⟨y, ys, _, hy⟩ := iterate_tuple_inside f (x :: rest) I hI
    exact ⟨_, hy⟩
  · intro I hI
    exact iterate_tuple_past_end f (x :: rest) I hI

/-- C18, at the tuple (10, 20, 30) with a step that logs the element, returns it as its
result and raises the stop flag on 20: the recursion returns 20 after the elements 10 and
20, and the index 2 is inside the tuple, the index 3 is not. -/
theorem iterate_tuple_stops_at_first_stop_witness :
    [10, 20, 30] ≠ ([] : List Nat) ∧ 2 < [10, 20, 30].length ∧ [10, 20, 30].length ≤ 3 ∧
    (∃ body,
      tuples.detail.iterate_tuple [10, 20, 30]
        (fun (x : Nat) (log : List Nat) => ((x == 20, x), log ++ [x])) 0 = some body ∧
      (∀ s, StopsAtFirstStop (fun (x : Nat) (log : List Nat) => ((x == 20, x), log ++ [x]))
        [10, 20, 30] s (body s)) ∧
      body [] = (20, [10, 20])) ∧
    (∃ body,
      tuples.detail.iterate_tuple [10, 20, 30]
        (fun (x : Nat) (log : List Nat) => ((x == 20, x), log ++ [x])) 2 = some body) ∧
    tuples.detail.iterate_tuple [10, 20, 30]
      (fun (x : Nat) (log : List Nat) => ((x == 20, x), log ++ [x])) 3 = none := by
  have hne : [10, 20, 30] ≠ ([] : List Nat) := by decide
  have h := iterate_tuple_stops_at_first_stop
    (fun (x : Nat) (log : List Nat) => ((x == 20, x), log ++ [x])) [10, 20, 30] hne
  obtain ⟨body, hbody, hstops⟩ := h.1
  refine ⟨hne, by decide, by decide, ⟨body, hbody, hstops, ?_⟩, h.2.1 2 (by decide),
    h.2.2 3 (by decide)⟩
  rw [iterate_tuple_cons] at hbody
  rw [← Option.some.inj hbody]
  rfl

/-- C12. Determinism of ticking: for every tree whose leaves are pure (the outcome of a leaf
does not depend on the state, and the leaf does not change it), in each engine a tick
leaves the state unchanged and returns the same status from every state, so any number of
successive ticks return one and the same status; in the static engine this holds of the
tick whenever it exists, and it exists for a buildable tree.  The tree carries no
evaluation state between ticks: a Fallback over the logging children (F, R, S), which
returns Running at child 1, invokes the children 0 and 1 again on the next tick. -/
theorem pure_trees_tick_deterministically (t : Tree σ) (hpure : Tree.PureLeaves t)
    (s s' : σ) (N : Nat) :
    ((Tree.toFunction t s).2 = s ∧ (Tree.toFunction t s').1 = (Tree.toFunction t s).1 ∧
      ticks (Tree.toFunction t) N s = (List.replicate N (Tree.toFunction t s).1, s)) ∧
    ((Tree.toInheritance t s).2 = s ∧
      (Tree.toInheritance t s').1 = (Tree.toInheritance t s).1 ∧
      ticks (Tree.toInheritance t) N s =
        (List.replicate N (Tree.toInheritance t s).1, s)) ∧
    (∀ node, Tree.toTuples t = some node →
      (node s).2 = s ∧ (node s').1 = (node s).1 ∧
      ticks node N s = (List.replicate N (node s).1, s)) ∧
    (Tree.Buildable t → ∃ r, tuples.tick (Tree.toTuples t) s = some r ∧ r.2 = s) ∧
    (ticks (function.Fallback (logged [Failure, Running, Success])) 2 [] =
        ([Running, Running], [0, 1, 0, 1]) ∧
      ticks (inheritance.Fallback (logged [Failure, Running, Success])) 2 [] =
        ([Running, Running], [0, 1, 0, 1]) ∧
      (tuples.Fallback (logged [Failure, Running, Success])).map (fun node => ticks node 2 []) =
        some ([Running, Running], [0, 1, 0, 1])) := by
  have key : ∀ node : σ → Status × σ, PureNode node →
      (node s).2 = s ∧ (node s').1 = (node s).1 ∧
        ticks node N s = (List.replicate N (node s).1, s) := by
    intro node hnode
    refine ⟨?_, ?_, ticks_pureNode node hnode N s⟩
    · obtain ⟨o, ho⟩ := hnode
      rw [ho s]
    · obtain ⟨o, ho⟩ := hnode
      rw [ho s, ho s']
  have hf := toFunction_pure t hpure
  refine ⟨key _ hf, ?_, ?_, ?_, rfl, rfl, ?_⟩
  · rw [toInheritance_eq]
    exact key _ hf
  · intro node hnode
    exact key node (toTuples_pure t hpure node hnode)
  · intro hb
    obtain ⟨node, hnode⟩ := toTuples_isSome t hb
    refine ⟨node s, by rw [hnode, tuples_tick_some],
      (key node (toTuples_pure t hpure node hnode)).1⟩
  · simp only [logged, List.enum, List.enumFrom, List.map_cons, tuples_fallback_cons,
      Option.map_some']
    rfl

/-- C12, at the sample tree with pure leaves, from the states 5 and 8, over three ticks; the
node the static engine builds from it is the one of the closure engine. -/
theorem pure_trees_tick_deterministically_witness :
    Tree.PureLeaves pureTree ∧ Tree.Buildable pureTree ∧
    Tree.toTuples pureTree = some (Tree.toFunction pureTree) ∧
    ((Tree.toFunction pureTree 5).2 = 5 ∧
      (Tree.toFunction pureTree 8).1 = (Tree.toFunction pureTree 5).1 ∧
      ticks (Tree.toFunction pureTree) 3 5 =
        (List.replicate 3 (Tree.toFunction pureTree 5).1, 5)) ∧
    ((Tree.toInheritance pureTree 5).2 = 5 ∧
      (Tree.toInheritance pureTree 8).1 = (Tree.toInheritance pureTree 5).1 ∧
      ticks (Tree.toInheritance pureTree) 3 5 =
        (List.replicate 3 (Tree.toInheritance pureTree 5).1, 5)) ∧
    ((Tree.toFunction pureTree 5).2 = 5 ∧
      (Tree.toFunction pureTree 8).1 = (Tree.toFunction pureTree 5).1 ∧
      ticks (Tree.toFunction pureTree) 3 5 =
        (List.replicate 3 (Tree.toFunction pureTree 5).1, 5)) ∧
    (∃ r, tuples.tick (Tree.toTuples pureTree) 5 = some r ∧ r.2 = 5) ∧
    Tree.toFunction pureTree 5 = (Running, 5) := by
  have hp : Tree.PureLeaves pureTree := by
    simp only [pureTree, Tree.PureLeaves, Tree.PureLeavesAll, and_true]
    exact ⟨⟨false, fun _ => rfl⟩, ⟨Running, fun _ => rfl⟩, ⟨Success, fun _ => rfl⟩⟩
  have hb : Tree.Buildable pureTree := by
    simp [pureTree, Tree.Buildable, Tree.BuildableAll, UNSIGNED_MOD]
  have h := pure_trees_tick_deterministically pureTree hp 5 8 3
  have hu : Tree.UnsignedThresholds pureTree := by
    simp [pureTree, Tree.UnsignedThresholds, Tree.UnsignedThresholdsAll, UNSIGNED_MOD]
  have ht : Tree.toTuples pureTree = some (Tree.toFunction pureTree) :=
    (tree_engines_eq pureTree hb hu).2
  refine ⟨hp, hb, ht, h.1, h.2.1, h.2.2.1 _ ht, h.2.2.2.1 hb, ?_⟩
  simp [pureTree, Tree.toFunction, Tree.toFunctionAll, function.Fallback,
    function.Parallel, function.Parallel.loop, function.ConditionNode]

/-- C13. Re-ticking an Action whose operation increments a counter shared with the caller
on each call and returns a status: for every `N`, `N` ticks of that Action increment the
counter exactly `N` times (counter after = counter before + `N`), and each tick is the call
of the operation, its status unmodified, in each engine.  For `Step2Node` of the benchmark,
whose counter is `int count`, `N` ticks return Success `N` times and leave `count + N`, as
long as that is an `int`. -/
theorem action_reticks_increment_counter (op : σ → Status × σ) (cnt : σ → Nat)
    (hinc : ∀ s, cnt (op s).2 = cnt s + 1) (N : Nat) (s : σ) :
    (cnt (ticks (Tree.toFunction (.action op)) N s).2 = cnt s + N ∧
      cnt (ticks (Tree.toInheritance (.action op)) N s).2 = cnt s + N ∧
      ∃ node, Tree.toTuples (.action op) = some node ∧ cnt (ticks node N s).2 = cnt s + N) ∧
    (Tree.toFunction (.action op) s = op s ∧ Tree.toInheritance (.action op) s = op s ∧
      tuples.tick (Tree.toTuples (.action op)) s = some (op s)) ∧
    (∀ (ρ : Type) (r : ρ) (count : Int), INT_MIN ≤ count → count + N ≤ INT_MAX →
      ticks (inheritance_bench.Step2Node (ρ := ρ)) N (r, count) =
        (List.replicate N Success, (r, count + N))) := by
  have hc := ticks_counter op cnt hinc N s
  refine ⟨⟨?_, ?_, op, ?_, hc⟩, ⟨?_, ?_, ?_⟩, ?_⟩
  · simpa only [Tree.toFunction] using hc
  · simpa only [Tree.toInheritance] using hc
  · simp only [Tree.toTuples]
  · simp only [Tree.toFunction]
  · simp only [Tree.toInheritance]
  · simp only [Tree.toTuples, tuples_tick_some]
  · intro ρ r count hmin hmax
    exact ticks_step2 N r count hmin hmax

/-- C13, at an Action over a counter that returns Running while the counter is below 2 and
Success from then on, ticked three times from 0; and at `Step2Node` ticked three times
from `count = 7`. -/
theorem action_reticks_increment_counter_witness :
    (∀ s : Nat, id ((fun (n : Nat) => (if n < 2 then Running else Success, n + 1)) s).2 =
      id s + 1) ∧
    INT_MIN ≤ 7 ∧ (7 : Int) + (3 : Nat) ≤ INT_MAX ∧
    ticks (Tree.toFunction
      (.action (fun (n : Nat) => (if n < 2 then Running else Success, n + 1)))) 3 0 =
        ([Running, Running, Success], 3) ∧
    id (ticks (Tree.toFunction
      (.action (fun (n : Nat) => (if n < 2 then Running else Success, n + 1)))) 3 0).2 =
        id 0 + 3 ∧
    ticks (inheritance_bench.Step2Node (ρ := Unit)) 3 ((), 7) =
      (List.replicate 3 Success, ((), (7 : Int) + (3 : Nat))) := by
  have hinc : ∀ s : Nat,
      id ((fun (n : Nat) => (if n < 2 then Running else Success, n + 1)) s).2 = id s + 1 :=
    fun _ => rfl
  have hmin : INT_MIN ≤ 7 := by decide
  have hmax : (7 : Int) + (3 : Nat) ≤ INT_MAX := by decide
  have h := action_reticks_increment_counter
    (fun (n : Nat) => (if n < 2 then Running else Success, n + 1)) id hinc 3 0
  exact ⟨hinc, hmin, hmax, rfl, h.1.1, h.2.2 Unit () 7 hmin hmax⟩

/-- C15. The benchmark tree `Fallback(ok, Sequence(step1, step2))` refines the loop body
`if (!random_boolean()) count++` of the reference implementation: for every boolean source
and every state, one tick of the tree in each of the three engines returns Success and
leaves the state the loop body leaves, in which the source has been called exactly once.
After `N` ticks the source has been called `N` times and `count` has grown by the number of
`false` among the `N` booleans drawn, as long as `count` stays within `int`.  Every boolean
sequence is drawn from some source, the one that plays it back. -/
theorem benchmark_tree_refines_reference_loop {ρ : Type} (rb : ρ → Bool × ρ) (r : ρ)
    (count : Int) (N : Nat) (hmin : INT_MIN ≤ count)
    (hmax : count + ((drawn rb N r).count false : Nat) ≤ INT_MAX) :
    (∀ st, inheritance_bench.inheritance_tree rb st =
          (Success, default_implementation rb st) ∧
        functional_bench.functional_tree rb st = (Success, default_implementation rb st) ∧
        tuples.tick (tuple_bench.tuple_tree rb) st =
          some (Success, default_implementation rb st)) ∧
    (∀ st, (default_implementation rb st).1 = (rb st.1).2 ∧
        (default_implementation rb st).2 =
          if (rb st.1).1 = false then wrap_int (st.2 + 1) else st.2) ∧
    (ticks (inheritance_bench.inheritance_tree rb) N (r, count) =
        (List.replicate N Success,
          (sourceAfter rb N r, count + ((drawn rb N r).count false : Nat))) ∧
      ticks (functional_bench.functional_tree rb) N (r, count) =
        (List.replicate N Success,
          (sourceAfter rb N r, count + ((drawn rb N r).count false : Nat))) ∧
      ∃ node, tuple_bench.tuple_tree rb = some node ∧
        ticks node N (r, count) =
          (List.replicate N Success,
            (sourceAfter rb N r, count + ((drawn rb N r).count false : Nat)))) ∧
    (∀ bs : List Bool,
      drawn (fun (l : List Bool) => (l.headD true, l.tail)) bs.length bs = bs) := by
  have hf := functional_tree_tick rb
  have hticks := ticks_reference rb (functional_bench.functional_tree rb) hf N r count hmin hmax
  refine ⟨?_, ?_, ⟨?_, hticks, _, tuple_tree_eq rb, hticks⟩, drawn_playback⟩
  · intro st
    rw [inheritance_tree_eq, tuple_tree_eq, tuples_tick_some]
    exact ⟨hf st, hf st, by rw [hf st]⟩
  · intro st
    rcases hb : rb st.1 with ⟨b, r'⟩
    cases b <;> simp [default_implementation, hb]
  · rw [inheritance_tree_eq]
    exact hticks

/-- C15, at the `random_boolean` of the benchmark over a table that alternates true and
false, from index 0 and `count = 0`, over four ticks: two of the four booleans drawn are
false, and `count` ends at 2. -/
theorem benchmark_tree_refines_reference_loop_witness :
    INT_MIN ≤ 0 ∧
    (0 : Int) + ((drawn (random_boolean (fun k => k % 2 == 0)) 4 0).count false : Nat) ≤
      INT_MAX ∧
    drawn (random_boolean (fun k => k % 2 == 0)) 4 0 = [true, false, true, false] ∧
    ticks (functional_bench.functional_tree (random_boolean (fun k => k % 2 == 0))) 4 (0, 0) =
      (List.replicate 4 Success,
        (sourceAfter (random_boolean (fun k => k % 2 == 0)) 4 0,
          (0 : Int) + ((drawn (random_boolean (fun k => k % 2 == 0)) 4 0).count false : Nat))) ∧
    ticks (functional_bench.functional_tree (random_boolean (fun k => k % 2 == 0))) 4 (0, 0) =
      ([Success, Success, Success, Success], (4, 2)) := by
  have hmin : INT_MIN ≤ 0 := by decide
  have hd : drawn (random_boolean (fun k => k % 2 == 0)) 4 0 = [true, false, true, false] := by
    decide
  have hmax : (0 : Int) +
      ((drawn (random_boolean (fun k => k % 2 == 0)) 4 0).count false : Nat) ≤ INT_MAX := by
    rw [hd]
    decide
  have h := benchmark_tree_refines_reference_loop (random_boolean (fun k => k % 2 == 0)) 0 0 4
    hmin hmax
  refine ⟨hmin, hmax, hd, h.2.2.1.2.1, ?_⟩
  decide

end Claims

end bt
